import Mathlib

set_option maxRecDepth 1000000

/-!
Shallow embedding of the RSAF file-encryption engine of `rsaa.py`
(`RSA_plain.validate_rsaf_file`, `RSA_plain.encrypt_file`,
`RSA_plain.decrypt_file`).

Files are modelled as lists of bytes (`List Nat`, each element < 256).
The RSA-OAEP block primitive is an external collaborator: theorems are
parameterised over an encryption function `enc : Nat → List Nat → List Nat`
(the first argument indexes the call, so distinct calls may produce
distinct ciphertexts, as OAEP randomisation allows) and a fallible
decryption `dec : List Nat → Option (List Nat)` (OAEP decryption raises on
ciphertext not produced for the matching key; `none` models that
exception).  The contract assumed of the pair is exactly what the code
relies on: decrypting an encrypted 190-byte block returns those bytes, and
every ciphertext block is 256 bytes long.
-/

/-- Constant `MAX_ENCRYPT_PER_BLOCK` from `rsaa.py`. -/
def MAX_ENCRYPT_PER_BLOCK : Nat := 190

/-- Constant `ENCRYPTED_BLOCK_SIZE` from `rsaa.py`. -/
def ENCRYPTED_BLOCK_SIZE : Nat := 256

/-- Constant `FILE_HEADER_SIZE` from `rsaa.py`. -/
def FILE_HEADER_SIZE : Nat := 32

/-- Constant `RSAF_MAGIC = b"RSAF"` from `rsaa.py`. -/
def RSAF_MAGIC : List Nat := [0x52, 0x53, 0x41, 0x46]

/-- Constant `RSAF_VERSION` from `rsaa.py`. -/
def RSAF_VERSION : Nat := 1

/-- Little-endian packing of `v` into `w` bytes (`struct.pack` with `<H`,
`<I`, `<Q`). -/
def packLE : Nat → Nat → List Nat
  | 0, _ => []
  | w + 1, v => (v % 256) :: packLE w (v / 256)

/-- Little-endian unpacking (`struct.unpack`). -/
def unpackLE : List Nat → Nat
  | [] => 0
  | b :: rest => b + 256 * unpackLE rest

/-- Python expression `bytes(a ^ b for a, b in zip(x, y))`: byte-wise XOR truncated to the
shorter argument, exactly as Python's `zip` truncates. -/
def xorBytes (x y : List Nat) : List Nat := List.zipWith (fun a b => a ^^^ b) x y

/-- Python expression `xored + b"\x00" * (n - len(xored))`: right zero-padding up to `n`
bytes (a no-op when the list is already at least `n` long, matching the
`if len(xored) < MAX_ENCRYPT_PER_BLOCK` guard). -/
def padTo (n : Nat) (l : List Nat) : List Nat := l ++ List.replicate (n - l.length) 0

/-- UTF-8 encoding of a single code point (Python `str.encode("utf-8")`,
one character). -/
def utf8EncodeChar (c : Nat) : List Nat :=
  if c < 0x80 then [c]
  else if c < 0x800 then [0xC0 + c / 64, 0x80 + c % 64]
  else if c < 0x10000 then [0xE0 + c / 4096, 0x80 + c / 64 % 64, 0x80 + c % 64]
  else [0xF0 + c / 262144, 0x80 + c / 4096 % 64, 0x80 + c / 64 % 64, 0x80 + c % 64]

/-- UTF-8 encoding of a string, the string being modelled as its list of
code points. -/
def utf8Encode (s : List Nat) : List Nat := (s.map utf8EncodeChar).flatten

/-- Length of a UTF-8 sequence as determined by its lead byte. -/
def utf8Len (b : Nat) : Nat :=
  if b < 0x80 then 1 else if b < 0xE0 then 2 else if b < 0xF0 then 3 else 4

/-- Code point reassembled from the bytes of one UTF-8 sequence. -/
def utf8Cp : List Nat → Nat
  | [b] => b
  | [b, b1] => (b - 0xC0) * 64 + (b1 - 0x80)
  | [b, b1, b2] => (b - 0xE0) * 4096 + (b1 - 0x80) * 64 + (b2 - 0x80)
  | [b, b1, b2, b3] =>
      (b - 0xF0) * 262144 + (b1 - 0x80) * 4096 + (b2 - 0x80) * 64 + (b3 - 0x80)
  | _ => 0

/-- Scalar values admissible as decoded code points (no surrogates, below
`0x110000`), as Python's strict UTF-8 codec enforces. -/
def validCp (c : Nat) : Bool := decide (c < 0xD800) || (decide (0xE000 ≤ c) && decide (c < 0x110000))

/-- Strict UTF-8 decoding with explicit fuel (the fuel is only there to
make the recursion structural; it is always instantiated with the length
of the input).  A sequence is accepted exactly when re-encoding the
reassembled code point reproduces the consumed bytes — this rejects
overlong forms, stray or malformed continuation bytes, surrogates and
out-of-range values, matching Python's `bytes.decode("utf-8")`. -/
def utf8DecodeFuel : Nat → List Nat → Option (List Nat)
  | _, [] => some []
  | 0, _ :: _ => none
  | f + 1, b :: rest =>
    if (b :: rest.take (utf8Len b - 1)).length = utf8Len b ∧
        validCp (utf8Cp (b :: rest.take (utf8Len b - 1))) ∧
        utf8EncodeChar (utf8Cp (b :: rest.take (utf8Len b - 1))) = b :: rest.take (utf8Len b - 1) then
      match utf8DecodeFuel f (rest.drop (utf8Len b - 1)) with
      | some cs => some (utf8Cp (b :: rest.take (utf8Len b - 1)) :: cs)
      | none => none
    else none

/-- Strict UTF-8 decoding (`bytes.decode("utf-8")`): `none` models
`UnicodeDecodeError`. -/
def utf8Decode (l : List Nat) : Option (List Nat) := utf8DecodeFuel l.length l

/-- Python expression `filename_bytes.decode("utf-8")` with the `except UnicodeDecodeError:
filename_bytes.decode("latin-1")` fallback of `validate_rsaf_file`:
Latin-1 maps each byte to the code point of the same value. -/
def decodeFilenameBytes (l : List Nat) : List Nat :=
  match utf8Decode l with
  | some cs => cs
  | none => l

/-- Splitting into successive chunks of `MAX_ENCRYPT_PER_BLOCK = 190`
bytes, as the `fin.read(MAX_ENCRYPT_PER_BLOCK)` loop does.  Fuel again
only makes the recursion structural. -/
def chunks190Fuel : Nat → List Nat → List (List Nat)
  | _, [] => []
  | 0, _ :: _ => []
  | f + 1, b :: rest => ((b :: rest).take 190) :: chunks190Fuel f ((b :: rest).drop 190)

/-- The successive 190-byte chunks of a byte list. -/
def chunks190 (l : List Nat) : List (List Nat) := chunks190Fuel l.length l

/-- The metadata dictionary returned by `validate_rsaf_file`.  The
filename is kept as its list of code points. -/
structure Metadata where
  version : Nat
  filename : List Nat
  fileSize : Nat
  blockCount : Nat
  totalSize : Nat
  deriving Repr, DecidableEq

/-- Function `RSA_plain.validate_rsaf_file`, the file being its byte contents.
Returns `none` exactly where the Python function returns `None`. -/
def validate_rsaf_file (file : List Nat) : Option Metadata :=
  if file.length < FILE_HEADER_SIZE then none
  else
    let header := file.take FILE_HEADER_SIZE
    if header.take 4 ≠ RSAF_MAGIC then none
    else
      let version := unpackLE ((header.drop 4).take 2)
      if version ≠ RSAF_VERSION then none
      else
        let filenameLen := unpackLE ((header.drop 6).take 2)
        let fileSize := unpackLE ((header.drop 8).take 8)
        let blockCount := unpackLE ((header.drop 16).take 4)
        let filenameBytes := (file.drop FILE_HEADER_SIZE).take filenameLen
        some
          { version := version
            filename := decodeFilenameBytes filenameBytes
            fileSize := fileSize
            blockCount := blockCount
            totalSize := file.length }

/-- The `fin.seek(FILE_HEADER_SIZE + len(original_filename.encode("utf-8")))`
expression of `decrypt_file`: the offset of the first encrypted block as
the decoder computes it, from the re-encoded decoded filename. -/
def firstBlockOffset (md : Metadata) : Nat :=
  FILE_HEADER_SIZE + (utf8Encode md.filename).length

/-- The 32-byte header assembled by `encrypt_file`. -/
def mkHeader (filenameBytes : List Nat) (fileSize blockCount : Nat) : List Nat :=
  RSAF_MAGIC ++ packLE 2 RSAF_VERSION ++ packLE 2 filenameBytes.length ++
    packLE 8 fileSize ++ packLE 4 blockCount ++ List.replicate 12 0

/-- The `while True` chunk-encryption loop of `encrypt_file`.  Arguments
mirror the Python local state: the chunks still to be read, the running
`prev_ciphertext`, `bytes_processed`, and the index of the next call to
the block primitive (call 0 encrypted the IV).  Returns the ciphertext
blocks written and the list of `(bytes_processed, file_size)` progress
callbacks, in order. -/
def encLoop (enc : Nat → List Nat → List Nat) (iv : List Nat) (fileSize : Nat) :
    List (List Nat) → List Nat → Nat → Nat → List (List Nat) × List (Nat × Nat)
  | [], _prev, _bp, _k => ([], [])
  | chunk :: rest, prev, bp, k =>
    let mask := if bp = 0 then iv else prev
    let xored := padTo MAX_ENCRYPT_PER_BLOCK (xorBytes chunk mask)
    let c := enc k xored
    let r := encLoop enc iv fileSize rest c (bp + chunk.length) (k + 1)
    (c :: r.1, (bp + chunk.length, fileSize) :: r.2)

/-- Result of `encrypt_file`: the bytes written to the output file, the
progress callbacks made, and the `{'bytes': ..., 'blocks': ...}` return
dictionary. -/
structure EncResult where
  out : List Nat
  progress : List (Nat × Nat)
  retBytes : Nat
  retBlocks : Nat
  deriving Repr, DecidableEq

/-- Function `RSA_plain.encrypt_file`.  `filename` is the basename of the source
path (as code points), `content` the source file's bytes, `iv` the
190 random bytes drawn from `os.urandom`. -/
def encrypt_file (enc : Nat → List Nat → List Nat) (iv : List Nat)
    (filename : List Nat) (content : List Nat) : EncResult :=
  let filenameBytes := utf8Encode filename
  let fileSize := content.length
  let blockCount := (fileSize + MAX_ENCRYPT_PER_BLOCK - 1) / MAX_ENCRYPT_PER_BLOCK
  let ivEncrypted := enc 0 iv
  let r := encLoop enc iv fileSize (chunks190 content) ivEncrypted 0 1
  { out := mkHeader filenameBytes fileSize blockCount ++ filenameBytes ++ ivEncrypted ++ r.1.flatten
    progress := r.2
    retBytes := fileSize
    retBlocks := blockCount }

/-- The `for i in range(block_count)` decryption loop of `decrypt_file`.
`count` is the number of iterations still to run (`block_count - i`),
`i` the Python loop index, `stream` the unread remainder of the encrypted
file, `prev` the running `prev_ciphertext`, `bp` `bytes_processed`.
Returns the chunks written to the output file and the progress callbacks;
`none` models the exception a failing block decryption raises. -/
def decLoop (dec : List Nat → Option (List Nat)) (iv : List Nat) (fileSize blockCount : Nat) :
    Nat → Nat → List Nat → List Nat → Nat → Option (List (List Nat) × List (Nat × Nat))
  | 0, _i, _stream, _prev, _bp => some ([], [])
  | count + 1, i, stream, prev, bp =>
    let encryptedBlock := stream.take ENCRYPTED_BLOCK_SIZE
    match dec encryptedBlock with
    | none => none
    | some decrypted =>
      let xored0 := if i = 0 then xorBytes decrypted iv else xorBytes decrypted prev
      let xored :=
        if i = blockCount - 1 ∧ fileSize % MAX_ENCRYPT_PER_BLOCK ≠ 0 then
          xored0.take (fileSize % MAX_ENCRYPT_PER_BLOCK)
        else xored0
      match decLoop dec iv fileSize blockCount count (i + 1)
          (stream.drop ENCRYPTED_BLOCK_SIZE) encryptedBlock (bp + xored.length) with
      | none => none
      | some r => some (xored :: r.1, (bp + xored.length, fileSize) :: r.2)

/-- Result of `decrypt_file`: the `{'filename': ..., 'size': ...}` return
dictionary, the chunks written to the output file (the output file's bytes
are their concatenation), and the progress callbacks made. -/
structure DecResult where
  filename : List Nat
  size : Nat
  chunks : List (List Nat)
  progress : List (Nat × Nat)
  deriving Repr, DecidableEq

/-- Function `RSA_plain.decrypt_file` on the byte contents of the encrypted file.
`none` models the exceptions raised on an invalid RSAF header or on a
failing block decryption. -/
def decrypt_file (dec : List Nat → Option (List Nat)) (file : List Nat) : Option DecResult :=
  match validate_rsaf_file file with
  | none => none
  | some md =>
    let rest := file.drop (firstBlockOffset md)
    let ivEncrypted := rest.take ENCRYPTED_BLOCK_SIZE
    match dec ivEncrypted with
    | none => none
    | some iv =>
      match decLoop dec iv md.fileSize md.blockCount md.blockCount 0
          (rest.drop ENCRYPTED_BLOCK_SIZE) ivEncrypted 0 with
      | none => none
      | some r =>
        some { filename := md.filename, size := md.fileSize, chunks := r.1, progress := r.2 }

/-- A concrete block primitive obeying the contract the code relies on,
used to evaluate the development on explicit inputs: "encryption" appends
66 zero bytes to a 190-byte block, "decryption" keeps the first 190 bytes
of a 256-byte block. -/
def concreteEnc (_k : Nat) (m : List Nat) : List Nat := m ++ List.replicate 66 0

/-- Inverse of `concreteEnc`; fails on blocks that are not 256 bytes long,
as OAEP decryption does. -/
def concreteDec (c : List Nat) : Option (List Nat) :=
  if c.length = 256 then some (c.take 190) else none

/-- The `(bytes_processed, total)` pairs reported over a sequence of
emitted chunks, starting from running total `bp`. -/
def progressList (fs : Nat) : List (List Nat) → Nat → List (Nat × Nat)
  | [], _ => []
  | c :: rest, bp => (bp + c.length, fs) :: progressList fs rest (bp + c.length)

/-! ### Spec-side chaining definitions (for the refinement claim about the
CBC masking rule; these two definitions follow the wording of the spec,
§4.2, and are compared against the loops translated from the code) -/

/-- Spec wording, encode step 3: `mask_i` is the raw seed for `i = 0` and
the previous chunk's ciphertext block for `i > 0`; `X_i` is the byte-wise
XOR over the overlapping length, zero-padded on the right to 190 bytes;
`C_i = Encrypt(X_i)`. -/
def specEncryptBlocks (enc : Nat → List Nat → List Nat) (seed : List Nat) :
    List (List Nat) → Nat → List Nat → List (List Nat)
  | [], _, _ => []
  | P :: rest, i, prev =>
    enc (i + 1) (padTo 190 (xorBytes P (if i = 0 then seed else prev))) ::
      specEncryptBlocks enc seed rest (i + 1)
        (enc (i + 1) (padTo 190 (xorBytes P (if i = 0 then seed else prev))))

/-- Spec wording, decode step 2: decrypt `C_i` to `X_i`, XOR with the same
mask rule (seed for `i = 0`, else the stored ciphertext block `C_{i-1}`),
truncating the final chunk when `fileSize` is not a multiple of 190. -/
def specDecryptChunks (dec : List Nat → Option (List Nat)) (seed : List Nat)
    (fileSize blockCount : Nat) : List (List Nat) → Nat → List Nat → Option (List (List Nat))
  | [], _, _ => some []
  | C :: rest, i, prev =>
    match dec C with
    | none => none
    | some X =>
      match specDecryptChunks dec seed fileSize blockCount rest (i + 1) C with
      | none => none
      | some Ps =>
        some ((if i = blockCount - 1 ∧ fileSize % 190 ≠ 0 then
            (xorBytes X (if i = 0 then seed else prev)).take (fileSize % 190)
          else xorBytes X (if i = 0 then seed else prev)) :: Ps)

/-- The chunk written by one iteration of the decryption loop, as a
function of the decrypted block `X` (same expression as in `decLoop`). -/
def decEmit (iv prev : List Nat) (fs bc i : Nat) (X : List Nat) : List Nat :=
  if i = bc - 1 ∧ fs % MAX_ENCRYPT_PER_BLOCK ≠ 0 then
    (if i = 0 then xorBytes X iv else xorBytes X prev).take (fs % MAX_ENCRYPT_PER_BLOCK)
  else (if i = 0 then xorBytes X iv else xorBytes X prev)

/-- An RSAF stream whose header lies: it declares `fileSize = 1` but
`blockCount = 2`, followed by a seed block and two data blocks that all
decrypt fine under the concrete primitive. -/
def badFile : List Nat := mkHeader [] 1 2 ++ List.replicate 768 0

def iv6 : List Nat := List.replicate 190 0

def content6 : List Nat := List.replicate 190 0 ++ List.replicate 190 1

/-- The encryption of `content6`, with ciphertext block `C_0`'s byte 0
(file offset 289) changed from 0 to 1 — a single-bit flip. -/
def file6T : List Nat := ((encrypt_file concreteEnc iv6 [0x61] content6).out).set 289 1

/-- A 32-byte file whose header is valid but declares a 5-byte filename
that is not present (the filename field would read past end-of-file). -/
def file4 : List Nat :=
  [0x52, 0x53, 0x41, 0x46] ++ packLE 2 1 ++ packLE 2 5 ++ packLE 8 0 ++ packLE 4 0 ++
    List.replicate 12 0

/-- The metadata the code actually returns for `file4`. -/
def md4 : Metadata :=
  { version := 1, filename := [], fileSize := 0, blockCount := 0, totalSize := 32 }

/-- A minimal RSAF file whose filename byte `0xFF` is not valid UTF-8,
so the decoder's Latin-1 fallback fires. -/
def file10 : List Nat := mkHeader [0xFF] 0 0 ++ [0xFF]

def md10 : Metadata :=
  { version := 1, filename := [255], fileSize := 0, blockCount := 0, totalSize := 33 }

/-! ### Little-endian packing -/

theorem packLE_length (w v : Nat) : (packLE w v).length = w := by
  induction w generalizing v with
  | zero => rfl
  | succ w ih => simp [packLE, ih]

theorem unpackLE_packLE (w v : Nat) (h : v < 256 ^ w) : unpackLE (packLE w v) = v := by
  induction w generalizing v with
  | zero => simp [Nat.pow_zero] at h; simp [h, packLE, unpackLE]
  | succ w ih =>
    have hdiv : v / 256 < 256 ^ w := by
      rw [Nat.div_lt_iff_lt_mul (by norm_num)]
      calc v < 256 ^ (w + 1) := h
        _ = 256 ^ w * 256 := by ring
    simp only [packLE, unpackLE, ih _ hdiv]
    omega

/-! ### XOR and padding -/

theorem xorBytes_length (x y : List Nat) : (xorBytes x y).length = min x.length y.length := by
  simp [xorBytes]

theorem xorBytes_xorBytes_cancel (c m : List Nat) :
    xorBytes (xorBytes c m) m = c.take m.length := by
  induction c generalizing m with
  | nil => simp [xorBytes]
  | cons a c ih =>
    cases m with
    | nil => simp [xorBytes]
    | cons b m =>
      simp only [xorBytes, List.zipWith_cons_cons, List.take_succ_cons] at *
      refine congrArg₂ _ ?_ (ih m)
      exact Nat.xor_cancel_right b a

theorem xorBytes_replicate_zero (n : Nat) (l : List Nat) :
    xorBytes (List.replicate n 0) l = l.take n := by
  induction n generalizing l with
  | zero => simp [xorBytes]
  | succ n ih =>
    cases l with
    | nil => simp [xorBytes]
    | cons b l =>
      simp only [List.replicate_succ, xorBytes, List.zipWith_cons_cons, List.take_succ_cons] at *
      exact congrArg₂ _ (Nat.zero_xor b) (ih l)

theorem padTo_length (n : Nat) (l : List Nat) (h : l.length ≤ n) : (padTo n l).length = n := by
  simp [padTo]; omega

theorem xorBytes_take_right (a : List Nat) (b : List Nat) (n : Nat) (h : a.length ≤ n) :
    xorBytes a (b.take n) = xorBytes a b := by
  induction a generalizing b n with
  | nil => simp [xorBytes]
  | cons x a ih =>
    cases b with
    | nil => simp [xorBytes]
    | cons y b =>
      cases n with
      | zero => simp at h
      | succ n =>
        simp only [List.length_cons] at h
        simp only [List.take_succ_cons, xorBytes, List.zipWith_cons_cons]
        exact congrArg _ (ih b n (by omega))

/-- Decrypt-side unmasking inverts encrypt-side masking: XORing the padded
masked chunk with the same mask recovers the chunk followed by leftover
mask bytes. -/
theorem xorBytes_padTo_recover (chunk mask : List Nat)
    (hc : chunk.length ≤ 190) (hm : 190 ≤ mask.length) :
    xorBytes (padTo 190 (xorBytes chunk mask)) mask =
      chunk ++ (mask.drop chunk.length).take (190 - chunk.length) := by
  have hlen : (xorBytes chunk mask).length = chunk.length := by
    rw [xorBytes_length]; omega
  have hpad : padTo 190 (xorBytes chunk mask) =
      xorBytes chunk mask ++ List.replicate (190 - chunk.length) 0 := by
    rw [padTo, hlen]
  have hsplit : mask = mask.take chunk.length ++ mask.drop chunk.length :=
    (List.take_append_drop _ _).symm
  calc xorBytes (padTo 190 (xorBytes chunk mask)) mask
      = List.zipWith (fun a b => a ^^^ b)
          (xorBytes chunk mask ++ List.replicate (190 - chunk.length) 0)
          (mask.take chunk.length ++ mask.drop chunk.length) := by
        rw [hpad, xorBytes, ← hsplit]
    _ = xorBytes (xorBytes chunk mask) (mask.take chunk.length) ++
          xorBytes (List.replicate (190 - chunk.length) 0) (mask.drop chunk.length) := by
        have hl2 : (xorBytes chunk mask).length = (mask.take chunk.length).length := by
          rw [hlen, List.length_take]; omega
        simp only [xorBytes]
        exact List.zipWith_append _ _ _ _ _ hl2
    _ = chunk ++ (mask.drop chunk.length).take (190 - chunk.length) := by
        rw [xorBytes_replicate_zero]
        refine congrArg₂ _ ?_ rfl
        have h1 : xorBytes (xorBytes chunk mask) (mask.take chunk.length) =
            xorBytes (xorBytes chunk mask) mask :=
          xorBytes_take_right _ _ _ (by omega)
        rw [h1, xorBytes_xorBytes_cancel]
        exact List.take_of_length_le (by omega)

/-! ### Chunking -/

theorem chunks190Fuel_congr (f₁ : Nat) (f₂ : Nat) (l : List Nat)
    (h₁ : l.length ≤ f₁) (h₂ : l.length ≤ f₂) :
    chunks190Fuel f₁ l = chunks190Fuel f₂ l := by
  induction f₁ generalizing f₂ l with
  | zero =>
    have : l = [] := by cases l with
      | nil => rfl
      | cons b rest => simp at h₁
    subst this
    cases f₂ <;> rfl
  | succ f₁ ih =>
    cases l with
    | nil => cases f₂ <;> rfl
    | cons b rest =>
      cases f₂ with
      | zero => simp at h₂
      | succ f₂ =>
        simp only [chunks190Fuel]
        refine congrArg _ (ih f₂ _ ?_ ?_) <;>
          simp only [List.length_drop, List.length_cons] at * <;> omega

theorem chunks190_eq_fuel (f : Nat) (l : List Nat) (h : l.length ≤ f) :
    chunks190 l = chunks190Fuel f l :=
  chunks190Fuel_congr l.length f l (Nat.le_refl _) h

theorem chunks190_cons (l : List Nat) (h : l ≠ []) :
    chunks190 l = l.take 190 :: chunks190 (l.drop 190) := by
  obtain ⟨b, rest, rfl⟩ := List.exists_cons_of_ne_nil h
  show chunks190Fuel (b :: rest).length (b :: rest) = _
  rw [List.length_cons]
  simp only [chunks190Fuel]
  refine congrArg _ ?_
  have hle : ((b :: rest).drop 190).length ≤ rest.length := by
    simp only [List.length_drop, List.length_cons]
    omega
  exact (chunks190_eq_fuel rest.length ((b :: rest).drop 190) hle).symm

theorem chunks190_flatten (l : List Nat) : (chunks190 l).flatten = l := by
  suffices h : ∀ f l, l.length ≤ f → (chunks190Fuel f l).flatten = l from h l.length l (Nat.le_refl _)
  intro f
  induction f with
  | zero =>
    intro l h
    cases l with
    | nil => rfl
    | cons b rest => simp at h
  | succ f ih =>
    intro l h
    cases l with
    | nil => rfl
    | cons b rest =>
      simp only [chunks190Fuel, List.flatten_cons]
      rw [ih _ (by simp only [List.length_drop, List.length_cons] at *; omega)]
      exact List.take_append_drop _ _

theorem chunks190_length (l : List Nat) : (chunks190 l).length = (l.length + 189) / 190 := by
  suffices h : ∀ f l, l.length ≤ f → (chunks190Fuel f l).length = (l.length + 189) / 190 from
    h l.length l (Nat.le_refl _)
  intro f
  induction f with
  | zero =>
    intro l h
    cases l with
    | nil => rfl
    | cons b rest => simp at h
  | succ f ih =>
    intro l h
    cases l with
    | nil => rfl
    | cons b rest =>
      simp only [chunks190Fuel, List.length_cons]
      rw [ih _ (by simp only [List.length_drop, List.length_cons] at *; omega)]
      simp only [List.length_drop, List.length_cons]
      omega

theorem chunks190_mem (l : List Nat) (c : List Nat) (hc : c ∈ chunks190 l) :
    c.length ≤ 190 ∧ c ≠ [] := by
  suffices h : ∀ f l, l.length ≤ f → ∀ c, c ∈ chunks190Fuel f l → c.length ≤ 190 ∧ c ≠ [] from
    h l.length l (Nat.le_refl _) c hc
  intro f
  induction f with
  | zero =>
    intro l h c hmem
    cases l with
    | nil => simp [chunks190Fuel] at hmem
    | cons b rest => simp at h
  | succ f ih =>
    intro l h c hmem
    cases l with
    | nil => simp [chunks190Fuel] at hmem
    | cons b rest =>
      simp only [chunks190Fuel, List.mem_cons] at hmem
      rcases hmem with rfl | hmem
      · constructor
        · simp
        · simp
      · exact ih _ (by simp only [List.length_drop, List.length_cons] at *; omega) c hmem

theorem chunks190_ne_nil (l : List Nat) (h : l ≠ []) : chunks190 l ≠ [] := by
  rw [chunks190_cons l h]
  simp

/-- Length of the final chunk: `fileSize mod 190` when `fileSize` is not
a multiple of 190, otherwise a full 190 bytes. -/
theorem chunks190_getLast_length (l : List Nat) (c : List Nat)
    (hc : (chunks190 l).getLast? = some c) :
    c.length = if l.length % 190 = 0 then 190 else l.length % 190 := by
  suffices h : ∀ f l, l ≠ [] → l.length ≤ f → ∀ c, (chunks190Fuel f l).getLast? = some c →
      c.length = if l.length % 190 = 0 then 190 else l.length % 190 by
    have hne : l ≠ [] := by
      intro hnil
      subst hnil
      simp [chunks190, chunks190Fuel] at hc
    exact h l.length l hne (Nat.le_refl _) c hc
  intro f
  induction f with
  | zero =>
    intro l hne h c hlast
    cases l with
    | nil => exact absurd rfl hne
    | cons b rest => simp at h
  | succ f ih =>
    intro l hne h c hlast
    cases l with
    | nil => exact absurd rfl hne
    | cons b rest =>
      by_cases hlen : (b :: rest).length ≤ 190
      · have hdrop : (b :: rest).drop 190 = [] := by
          rw [List.drop_eq_nil_iff]
          omega
        simp only [chunks190Fuel, hdrop, List.getLast?_singleton, Option.some.injEq] at hlast
        subst hlast
        simp only [List.length_take]
        simp only [List.length_cons] at *
        split_ifs with hm <;> omega
      · have hdropne : (b :: rest).drop 190 ≠ [] := by
          rw [← List.length_pos_iff_ne_nil]
          simp only [List.length_drop, List.length_cons] at *
          omega
        have hrecne : chunks190Fuel f ((b :: rest).drop 190) ≠ [] := by
          have hle : ((b :: rest).drop 190).length ≤ f := by
            simp only [List.length_drop, List.length_cons] at *
            omega
          rw [← chunks190_eq_fuel f _ hle]
          exact chunks190_ne_nil _ hdropne
        obtain ⟨x, xs, hxs⟩ := List.exists_cons_of_ne_nil hrecne
        simp only [chunks190Fuel] at hlast
        rw [hxs, List.getLast?_cons_cons, ← hxs] at hlast
        have := ih ((b :: rest).drop 190) hdropne
          (by simp only [List.length_drop, List.length_cons] at *; omega) c hlast
        rw [this]
        simp only [List.length_drop, List.length_cons]
        have h190 : ¬ (b :: rest).length ≤ 190 := hlen
        simp only [List.length_cons] at h190
        split_ifs with h1 h2 <;> omega

/-! ### UTF-8 -/

theorem utf8EncodeChar_one (c : Nat) (h : c < 0x80) : utf8EncodeChar c = [c] := by
  simp [utf8EncodeChar, h]

theorem utf8EncodeChar_two (c : Nat) (h1 : 0x80 ≤ c) (h2 : c < 0x800) :
    utf8EncodeChar c = [0xC0 + c / 64, 0x80 + c % 64] := by
  rw [utf8EncodeChar, if_neg (by omega), if_pos h2]

theorem utf8EncodeChar_three (c : Nat) (h1 : 0x800 ≤ c) (h2 : c < 0x10000) :
    utf8EncodeChar c = [0xE0 + c / 4096, 0x80 + c / 64 % 64, 0x80 + c % 64] := by
  rw [utf8EncodeChar, if_neg (by omega), if_neg (by omega), if_pos h2]

theorem utf8EncodeChar_four (c : Nat) (h1 : 0x10000 ≤ c) :
    utf8EncodeChar c =
      [0xF0 + c / 262144, 0x80 + c / 4096 % 64, 0x80 + c / 64 % 64, 0x80 + c % 64] := by
  rw [utf8EncodeChar, if_neg (by omega), if_neg (by omega), if_neg (by omega)]

theorem utf8EncodeChar_length_pos (c : Nat) : 1 ≤ (utf8EncodeChar c).length := by
  rw [utf8EncodeChar]
  split_ifs <;> simp

theorem utf8EncodeChar_length_two_le (c : Nat) (h : 0x80 ≤ c) :
    2 ≤ (utf8EncodeChar c).length := by
  rw [utf8EncodeChar]
  split_ifs with h1 h2 h3
  · omega
  · simp
  · simp
  · simp

theorem utf8Encode_nil : utf8Encode [] = [] := rfl

theorem utf8Encode_cons (c : Nat) (s : List Nat) :
    utf8Encode (c :: s) = utf8EncodeChar c ++ utf8Encode s := by
  simp [utf8Encode]

theorem utf8Encode_length_ge (s : List Nat) : s.length ≤ (utf8Encode s).length := by
  induction s with
  | nil => simp [utf8Encode]
  | cons c s ih =>
    rw [utf8Encode_cons, List.length_append, List.length_cons]
    have := utf8EncodeChar_length_pos c
    omega

theorem utf8Encode_length_gt (s : List Nat) (h : ∃ b ∈ s, 0x80 ≤ b) :
    s.length < (utf8Encode s).length := by
  induction s with
  | nil => simp at h
  | cons c s ih =>
    rw [utf8Encode_cons, List.length_append, List.length_cons]
    obtain ⟨b, hb, hbe⟩ := h
    rcases List.mem_cons.mp hb with rfl | hb'
    · have h2 := utf8EncodeChar_length_two_le b hbe
      have h3 := utf8Encode_length_ge s
      omega
    · have h2 := ih ⟨b, hb', hbe⟩
      have h3 := utf8EncodeChar_length_pos c
      omega

theorem utf8DecodeFuel_congr (f₁ : Nat) (f₂ : Nat) (l : List Nat)
    (h₁ : l.length ≤ f₁) (h₂ : l.length ≤ f₂) :
    utf8DecodeFuel f₁ l = utf8DecodeFuel f₂ l := by
  induction f₁ generalizing f₂ l with
  | zero =>
    have : l = [] := by cases l with
      | nil => rfl
      | cons b rest => simp at h₁
    subst this
    cases f₂ <;> rfl
  | succ f₁ ih =>
    cases l with
    | nil => cases f₂ <;> rfl
    | cons b rest =>
      cases f₂ with
      | zero => simp at h₂
      | succ f₂ =>
        have hr : utf8DecodeFuel f₁ (rest.drop (utf8Len b - 1)) =
            utf8DecodeFuel f₂ (rest.drop (utf8Len b - 1)) := by
          refine ih f₂ _ ?_ ?_ <;>
            simp only [List.length_drop, List.length_cons] at * <;> omega
        simp only [utf8DecodeFuel, hr]

theorem utf8Decode_eq_fuel (f : Nat) (l : List Nat) (h : l.length ≤ f) :
    utf8Decode l = utf8DecodeFuel f l :=
  utf8DecodeFuel_congr l.length f l (Nat.le_refl _) h

/-- Decoding a stream beginning with the encoding of a valid code point
consumes exactly that character's bytes and recovers the code point. -/
theorem utf8DecodeFuel_encodeChar_append (c : Nat) (tail : List Nat) (f : Nat)
    (hv : validCp c = true) (ht : tail.length ≤ f) :
    utf8DecodeFuel (f + 1) (utf8EncodeChar c ++ tail) =
      match utf8Decode tail with
      | some cs => some (c :: cs)
      | none => none := by
  have hv' : c < 0xD800 ∨ (0xE000 ≤ c ∧ c < 0x110000) := by
    simp only [validCp, Bool.or_eq_true, Bool.and_eq_true, decide_eq_true_eq] at hv
    exact hv
  by_cases h1 : c < 0x80
  · rw [utf8EncodeChar_one c h1, List.cons_append, List.nil_append]
    have hn : utf8Len c = 1 := by rw [utf8Len, if_pos h1]
    simp only [utf8DecodeFuel, hn, Nat.sub_self, List.take_zero, List.drop_zero]
    split_ifs with hcond
    · rw [utf8Decode_eq_fuel f tail ht]
      cases utf8DecodeFuel f tail <;> rfl
    · exact absurd ⟨by simp, hv, utf8EncodeChar_one c h1⟩ hcond
  · by_cases h2 : c < 0x800
    · rw [utf8EncodeChar_two c (by omega) h2]
      simp only [List.cons_append, List.nil_append]
      have hn : utf8Len (0xC0 + c / 64) = 2 := by
        rw [utf8Len, if_neg (by omega), if_pos (by omega)]
      have hcp : utf8Cp [0xC0 + c / 64, 0x80 + c % 64] = c := by
        show (0xC0 + c / 64 - 0xC0) * 64 + (0x80 + c % 64 - 0x80) = c
        omega
      simp only [utf8DecodeFuel, hn, show (2 : Nat) - 1 = 1 from rfl,
        show ∀ x : Nat, ∀ l : List Nat, (x :: l).take 1 = [x] from fun _ _ => rfl,
        show ∀ x : Nat, ∀ l : List Nat, (x :: l).drop 1 = l from fun _ _ => rfl]
      split_ifs with hcond
    
      · rw [utf8Decode_eq_fuel f tail ht]
        cases utf8DecodeFuel f tail <;> simp [hcp]
      · refine absurd ⟨by simp, ?_, ?_⟩ hcond
        · rw [hcp]; exact hv
        · rw [hcp]; exact utf8EncodeChar_two c (by omega) h2
    · by_cases h3 : c < 0x10000
      · rw [utf8EncodeChar_three c (by omega) h3]
        simp only [List.cons_append, List.nil_append]
        have hn : utf8Len (0xE0 + c / 4096) = 3 := by
          rw [utf8Len, if_neg (by omega), if_neg (by omega), if_pos (by omega)]
        have hcp : utf8Cp [0xE0 + c / 4096, 0x80 + c / 64 % 64, 0x80 + c % 64] = c := by
          show (0xE0 + c / 4096 - 0xE0) * 4096 + (0x80 + c / 64 % 64 - 0x80) * 64 +
            (0x80 + c % 64 - 0x80) = c
          omega
        simp only [utf8DecodeFuel, hn, show (3 : Nat) - 1 = 2 from rfl,
          show ∀ x y : Nat, ∀ l : List Nat, (x :: y :: l).take 2 = [x, y] from fun _ _ _ => rfl,
          show ∀ x y : Nat, ∀ l : List Nat, (x :: y :: l).drop 2 = l from fun _ _ _ => rfl]
        split_ifs with hcond
        · rw [utf8Decode_eq_fuel f tail ht]
          cases utf8DecodeFuel f tail <;> simp [hcp]
        · refine absurd ⟨by simp, ?_, ?_⟩ hcond
          · rw [hcp]; exact hv
          · rw [hcp]; exact utf8EncodeChar_three c (by omega) h3
      · rw [utf8EncodeChar_four c (by omega)]
        simp only [List.cons_append, List.nil_append]
        have hn : utf8Len (0xF0 + c / 262144) = 4 := by
          rw [utf8Len, if_neg (by omega), if_neg (by omega), if_neg (by omega)]
        have hcp : utf8Cp [0xF0 + c / 262144, 0x80 + c / 4096 % 64,
            0x80 + c / 64 % 64, 0x80 + c % 64] = c := by
          show (0xF0 + c / 262144 - 0xF0) * 262144 + (0x80 + c / 4096 % 64 - 0x80) * 4096 +
            (0x80 + c / 64 % 64 - 0x80) * 64 + (0x80 + c % 64 - 0x80) = c
          omega
        simp only [utf8DecodeFuel, hn, show (4 : Nat) - 1 = 3 from rfl,
          show ∀ x y z : Nat, ∀ l : List Nat, (x :: y :: z :: l).take 3 = [x, y, z] from
            fun _ _ _ _ => rfl,
          show ∀ x y z : Nat, ∀ l : List Nat, (x :: y :: z :: l).drop 3 = l from
            fun _ _ _ _ => rfl]
        split_ifs with hcond
        · rw [utf8Decode_eq_fuel f tail ht]
          cases utf8DecodeFuel f tail <;> simp [hcp]
        · refine absurd ⟨by simp, ?_, ?_⟩ hcond
          · rw [hcp]; exact hv
          · rw [hcp]; exact utf8EncodeChar_four c (by omega)

theorem utf8EncodeChar_length_le (c : Nat) : (utf8EncodeChar c).length ≤ 4 := by
  rw [utf8EncodeChar]
  split_ifs <;> simp

/-- Decoding inverts encoding on lists of valid code points. -/
theorem utf8Decode_utf8Encode (s : List Nat) (hv : ∀ c ∈ s, validCp c = true) :
    utf8Decode (utf8Encode s) = some s := by
  induction s with
  | nil => rfl
  | cons c s ih =>
    rw [utf8Encode_cons]
    have hle : (utf8EncodeChar c ++ utf8Encode s).length ≤ ((utf8Encode s).length + 3) + 1 := by
      rw [List.length_append]
      have := utf8EncodeChar_length_le c
      omega
    rw [utf8Decode_eq_fuel (((utf8Encode s).length + 3) + 1) _ hle]
    rw [utf8DecodeFuel_encodeChar_append c _ _ (hv c (by simp)) (by omega)]
    rw [ih (fun d hd => hv d (by simp [hd]))]

/-- Encoding inverts decoding: a successfully decoded byte list is the
encoding of its decode. -/
theorem utf8Encode_utf8DecodeFuel (f : Nat) :
    ∀ l cs, utf8DecodeFuel f l = some cs → utf8Encode cs = l := by
  induction f with
  | zero =>
    intro l cs h
    cases l with
    | nil =>
      simp only [utf8DecodeFuel, Option.some.injEq] at h
      subst h
      rfl
    | cons b rest => exact absurd h (by simp [utf8DecodeFuel])
  | succ f ih =>
    intro l cs h
    cases l with
    | nil =>
      simp only [utf8DecodeFuel, Option.some.injEq] at h
      subst h
      rfl
    | cons b rest =>
      simp only [utf8DecodeFuel] at h
      split_ifs at h with hcond
      obtain ⟨hlen, hvp, henc⟩ := hcond
      cases hrec : utf8DecodeFuel f (rest.drop (utf8Len b - 1)) with
      | none => rw [hrec] at h; exact absurd h (by simp)
      | some cs' =>
        rw [hrec] at h
        simp only [Option.some.injEq] at h
        subst h
        rw [utf8Encode_cons, henc, ih _ _ hrec]
        simp only [List.cons_append, List.cons.injEq, true_and]
        exact List.take_append_drop _ _

theorem utf8Encode_utf8Decode (l : List Nat) (cs : List Nat) (h : utf8Decode l = some cs) :
    utf8Encode cs = l :=
  utf8Encode_utf8DecodeFuel l.length l cs h

/-- Pure ASCII byte lists decode to themselves. -/
theorem utf8Decode_ascii (l : List Nat) (h : ∀ b ∈ l, b < 0x80) : utf8Decode l = some l := by
  suffices hs : ∀ f l, l.length ≤ f → (∀ b ∈ l, b < 0x80) → utf8DecodeFuel f l = some l from
    hs l.length l (Nat.le_refl _) h
  intro f
  induction f with
  | zero =>
    intro l hf _
    cases l with
    | nil => rfl
    | cons b rest => simp at hf
  | succ f ih =>
    intro l hf hb
    cases l with
    | nil => rfl
    | cons b rest =>
      have hb0 : b < 0x80 := hb b (by simp)
      have hn : utf8Len b = 1 := by rw [utf8Len, if_pos hb0]
      simp only [utf8DecodeFuel, hn, Nat.sub_self, List.take_zero, List.drop_zero]
      have hrec : utf8DecodeFuel f rest = some rest := by
        refine ih rest ?_ (fun d hd => hb d (by simp [hd]))
        simp only [List.length_cons] at hf
        omega
      have hcp : utf8Cp [b] = b := rfl
      have hvb : validCp (utf8Cp [b]) = true := by
        rw [hcp]
        simp only [validCp, Bool.or_eq_true, decide_eq_true_eq]
        left
        omega
      have hencb : utf8EncodeChar (utf8Cp [b]) = [b] := by
        rw [hcp]
        exact utf8EncodeChar_one b hb0
      rw [if_pos ⟨by simp, hvb, hencb⟩, hrec, hcp]

theorem utf8Decode_none_exists_high (l : List Nat) (h : utf8Decode l = none) :
    ∃ b ∈ l, 0x80 ≤ b := by
  by_contra hc
  push_neg at hc
  rw [utf8Decode_ascii l (fun b hb => hc b hb)] at h
  exact absurd h (by simp)

/-! ### Header construction and validation -/

theorem take_append_len (l₁ l₂ : List Nat) (n : Nat) (h : n = l₁.length) :
    (l₁ ++ l₂).take n = l₁ := by
  subst h
  exact List.take_left l₁ l₂

theorem drop_append_len (l₁ l₂ : List Nat) (n : Nat) (h : n = l₁.length) :
    (l₁ ++ l₂).drop n = l₂ := by
  subst h
  exact List.drop_left l₁ l₂

theorem mkHeader_length (fb : List Nat) (fs bc : Nat) : (mkHeader fb fs bc).length = 32 := by
  simp [mkHeader, RSAF_MAGIC, packLE_length]

theorem mkHeader_take_4 (fb : List Nat) (fs bc : Nat) :
    (mkHeader fb fs bc).take 4 = RSAF_MAGIC := by
  rw [mkHeader]
  simp only [List.append_assoc]
  exact take_append_len _ _ _ rfl

theorem mkHeader_version_field (fb : List Nat) (fs bc : Nat) :
    ((mkHeader fb fs bc).drop 4).take 2 = packLE 2 RSAF_VERSION := by
  rw [mkHeader]
  simp only [List.append_assoc]
  rw [drop_append_len RSAF_MAGIC _ 4 rfl]
  exact take_append_len _ _ _ (packLE_length 2 _).symm

theorem mkHeader_filenameLen_field (fb : List Nat) (fs bc : Nat) :
    ((mkHeader fb fs bc).drop 6).take 2 = packLE 2 fb.length := by
  have hgrp : mkHeader fb fs bc = (RSAF_MAGIC ++ packLE 2 RSAF_VERSION) ++
      (packLE 2 fb.length ++ (packLE 8 fs ++ (packLE 4 bc ++ List.replicate 12 0))) := by
    rw [mkHeader]
    simp [List.append_assoc]
  rw [hgrp, drop_append_len _ _ 6 (by simp [RSAF_MAGIC, packLE_length])]
  exact take_append_len _ _ _ (packLE_length 2 _).symm

theorem mkHeader_fileSize_field (fb : List Nat) (fs bc : Nat) :
    ((mkHeader fb fs bc).drop 8).take 8 = packLE 8 fs := by
  have hgrp : mkHeader fb fs bc = (RSAF_MAGIC ++ packLE 2 RSAF_VERSION ++ packLE 2 fb.length) ++
      (packLE 8 fs ++ (packLE 4 bc ++ List.replicate 12 0)) := by
    rw [mkHeader]
    simp [List.append_assoc]
  rw [hgrp, drop_append_len _ _ 8 (by simp [RSAF_MAGIC, packLE_length])]
  exact take_append_len _ _ _ (packLE_length 8 _).symm

theorem mkHeader_blockCount_field (fb : List Nat) (fs bc : Nat) :
    ((mkHeader fb fs bc).drop 16).take 4 = packLE 4 bc := by
  have hgrp : mkHeader fb fs bc =
      (RSAF_MAGIC ++ packLE 2 RSAF_VERSION ++ packLE 2 fb.length ++ packLE 8 fs) ++
      (packLE 4 bc ++ List.replicate 12 0) := by
    rw [mkHeader]
    simp [List.append_assoc]
  rw [hgrp, drop_append_len _ _ 16 (by simp [RSAF_MAGIC, packLE_length])]
  exact take_append_len _ _ _ (packLE_length 4 _).symm

/-- Running `validate_rsaf_file` on a well-formed RSAF byte stream parses back
the header fields. -/
theorem validate_rsaf_file_mk (fb : List Nat) (fs bc : Nat) (extra : List Nat)
    (hfb : fb.length < 65536) (hfs : fs < 2 ^ 64) (hbc : bc < 2 ^ 32) :
    validate_rsaf_file (mkHeader fb fs bc ++ fb ++ extra) =
      some { version := 1, filename := decodeFilenameBytes fb, fileSize := fs,
             blockCount := bc, totalSize := 32 + fb.length + extra.length } := by
  have hassoc : mkHeader fb fs bc ++ fb ++ extra = mkHeader fb fs bc ++ (fb ++ extra) := by
    simp [List.append_assoc]
  have hlen : (mkHeader fb fs bc ++ fb ++ extra).length = 32 + fb.length + extra.length := by
    simp [mkHeader_length]
    omega
  have htake : (mkHeader fb fs bc ++ fb ++ extra).take 32 = mkHeader fb fs bc := by
    rw [hassoc]
    exact take_append_len _ _ _ (mkHeader_length fb fs bc).symm
  have hdrop : (mkHeader fb fs bc ++ fb ++ extra).drop 32 = fb ++ extra := by
    rw [hassoc]
    exact drop_append_len _ _ _ (mkHeader_length fb fs bc).symm
  rw [validate_rsaf_file]
  rw [if_neg (by rw [hlen]; show ¬(32 + fb.length + extra.length < FILE_HEADER_SIZE); rw [FILE_HEADER_SIZE]; omega)]
  simp only [FILE_HEADER_SIZE, htake, hdrop]
  rw [mkHeader_take_4]
  rw [if_neg (fun hne => hne rfl)]
  rw [mkHeader_version_field]
  rw [unpackLE_packLE 2 RSAF_VERSION (by rw [RSAF_VERSION]; norm_num)]
  rw [if_neg (fun hne => hne rfl)]
  rw [mkHeader_filenameLen_field, mkHeader_fileSize_field, mkHeader_blockCount_field]
  rw [unpackLE_packLE 2 fb.length (by norm_num; omega)]
  rw [unpackLE_packLE 8 fs (by norm_num at hfs ⊢; omega)]
  rw [unpackLE_packLE 4 bc (by norm_num at hbc ⊢; omega)]
  rw [take_append_len fb extra _ rfl]
  rw [hlen]
  rfl

/-- Function `validate_rsaf_file` returns `None` exactly on a short header, a
magic mismatch, or a version mismatch (truncated filename fields are NOT
rejected). -/
theorem validate_rsaf_file_none_iff (file : List Nat) :
    validate_rsaf_file file = none ↔
      (file.length < 32 ∨ (file.take 32).take 4 ≠ RSAF_MAGIC ∨
        unpackLE (((file.take 32).drop 4).take 2) ≠ 1) := by
  rw [validate_rsaf_file]
  simp only [FILE_HEADER_SIZE, RSAF_VERSION]
  split_ifs with h1 h2 h3
  · simp [h1]
  · simp [h2]
  · simp [h3]
  · simp [h1, h2, h3]

/-! ### Progress reporting -/

theorem progressList_snd (fs : Nat) (chunks : List (List Nat)) (bp : Nat) :
    ∀ p ∈ progressList fs chunks bp, p.2 = fs := by
  induction chunks generalizing bp with
  | nil => simp [progressList]
  | cons c rest ih =>
    intro p hp
    simp only [progressList, List.mem_cons] at hp
    rcases hp with rfl | hp
    · rfl
    · exact ih _ p hp

theorem progressList_length (fs : Nat) (chunks : List (List Nat)) (bp : Nat) :
    (progressList fs chunks bp).length = chunks.length := by
  induction chunks generalizing bp with
  | nil => rfl
  | cons c rest ih => simp [progressList, ih]

theorem progressList_chain (fs : Nat) (chunks : List (List Nat)) (bp : Nat) :
    List.Chain' (fun a b => a.1 ≤ b.1) (progressList fs chunks bp) := by
  induction chunks generalizing bp with
  | nil => simp [progressList]
  | cons c rest ih =>
    cases rest with
    | nil => simp [progressList]
    | cons d rest' =>
      simp only [progressList, List.chain'_cons]
      exact ⟨by omega, ih (bp + c.length)⟩

theorem progressList_head_ge (fs : Nat) (chunks : List (List Nat)) (bp : Nat)
    (p : Nat × Nat) (hp : p ∈ progressList fs chunks bp) : bp ≤ p.1 := by
  induction chunks generalizing bp with
  | nil => simp [progressList] at hp
  | cons c rest ih =>
    simp only [progressList, List.mem_cons] at hp
    rcases hp with rfl | hp
    · simp
    · have := ih (bp + c.length) hp
      omega

theorem progressList_getLast (fs : Nat) (chunks : List (List Nat)) (bp : Nat)
    (h : chunks ≠ []) :
    (progressList fs chunks bp).getLast? = some (bp + chunks.flatten.length, fs) := by
  induction chunks generalizing bp with
  | nil => exact absurd rfl h
  | cons c rest ih =>
    cases rest with
    | nil => simp [progressList]
    | cons d rest' =>
      rw [show progressList fs (c :: d :: rest') bp =
          (bp + c.length, fs) :: ((bp + c.length + d.length, fs) ::
            progressList fs rest' (bp + c.length + d.length)) from rfl]
      rw [List.getLast?_cons_cons]
      rw [show ((bp + c.length + d.length, fs) ::
            progressList fs rest' (bp + c.length + d.length)) =
          progressList fs (d :: rest') (bp + c.length) from rfl]
      rw [ih (bp + c.length) (by simp)]
      simp only [List.flatten_cons, List.length_append, Option.some.injEq, Prod.mk.injEq, and_true]
      omega

/-! ### Loop lemmas -/

theorem encLoop_progress (enc : Nat → List Nat → List Nat) (iv : List Nat) (fs : Nat)
    (chunks : List (List Nat)) : ∀ prev bp k,
    (encLoop enc iv fs chunks prev bp k).2 = progressList fs chunks bp := by
  induction chunks with
  | nil => intro prev bp k; rfl
  | cons c rest ih =>
    intro prev bp k
    simp only [encLoop, progressList]
    rw [ih]

theorem encLoop_blocks_count (enc : Nat → List Nat → List Nat) (iv : List Nat) (fs : Nat)
    (chunks : List (List Nat)) : ∀ prev bp k,
    (encLoop enc iv fs chunks prev bp k).1.length = chunks.length := by
  induction chunks with
  | nil => intro prev bp k; rfl
  | cons c rest ih =>
    intro prev bp k
    simp only [encLoop, List.length_cons]
    rw [ih]

theorem xored_length (chunk mask : List Nat) (h : chunk.length ≤ 190) :
    (padTo 190 (xorBytes chunk mask)).length = 190 :=
  padTo_length _ _ (by rw [xorBytes_length]; omega)

theorem encLoop_blocks_len256 (enc : Nat → List Nat → List Nat) (iv : List Nat) (fs : Nat)
    (hbl : ∀ k m, m.length = 190 → (enc k m).length = 256)
    (chunks : List (List Nat)) (hc : ∀ c ∈ chunks, c.length ≤ 190) : ∀ prev bp k,
    ∀ blk ∈ (encLoop enc iv fs chunks prev bp k).1, blk.length = 256 := by
  induction chunks with
  | nil => intro prev bp k blk hblk; simp [encLoop] at hblk
  | cons c rest ih =>
    intro prev bp k blk hblk
    simp only [encLoop, List.mem_cons] at hblk
    rcases hblk with rfl | hblk
    · exact hbl _ _ (xored_length c _ (hc c (by simp)))
    · exact ih (fun d hd => hc d (by simp [hd])) _ _ _ blk hblk

theorem encLoop_flatten_length (enc : Nat → List Nat → List Nat) (iv : List Nat) (fs : Nat)
    (hbl : ∀ k m, m.length = 190 → (enc k m).length = 256)
    (chunks : List (List Nat)) (hc : ∀ c ∈ chunks, c.length ≤ 190) (prev : List Nat) (bp k : Nat) :
    (encLoop enc iv fs chunks prev bp k).1.flatten.length = 256 * chunks.length := by
  rw [List.length_flatten]
  have hall : ∀ blk ∈ (encLoop enc iv fs chunks prev bp k).1, blk.length = 256 :=
    encLoop_blocks_len256 enc iv fs hbl chunks hc prev bp k
  have hcount := encLoop_blocks_count enc iv fs chunks prev bp k
  calc ((encLoop enc iv fs chunks prev bp k).1.map List.length).sum
      = ((encLoop enc iv fs chunks prev bp k).1.map (fun _ => 256)).sum := by
        refine congrArg _ (List.map_congr_left ?_)
        intro blk hblk
        exact hall blk hblk
    _ = 256 * chunks.length := by
        rw [List.map_const']
        rw [List.sum_replicate]
        rw [hcount]
        simp [Nat.smul_one_eq_cast]
        ring

theorem decLoop_some_shape (dec : List Nat → Option (List Nat)) (iv : List Nat)
    (fs bc : Nat) : ∀ count i stream prev bp out ps,
    decLoop dec iv fs bc count i stream prev bp = some (out, ps) →
    ps = progressList fs out bp ∧ out.length = count := by
  intro count
  induction count with
  | zero =>
    intro i stream prev bp out ps h
    simp only [decLoop, Option.some.injEq, Prod.mk.injEq] at h
    obtain ⟨h1, h2⟩ := h
    subst h1
    subst h2
    exact ⟨rfl, rfl⟩
  | succ count ih =>
    intro i stream prev bp out ps h
    rw [decLoop] at h
    cases hdec : dec (stream.take ENCRYPTED_BLOCK_SIZE) with
    | none => rw [hdec] at h; simp at h
    | some decrypted =>
      rw [hdec] at h
      dsimp only at h
      cases hrec : decLoop dec iv fs bc count (i + 1) (stream.drop ENCRYPTED_BLOCK_SIZE)
          (stream.take ENCRYPTED_BLOCK_SIZE)
          (bp + (if i = bc - 1 ∧ fs % MAX_ENCRYPT_PER_BLOCK ≠ 0 then
            (if i = 0 then xorBytes decrypted iv else xorBytes decrypted prev).take
              (fs % MAX_ENCRYPT_PER_BLOCK)
          else (if i = 0 then xorBytes decrypted iv else xorBytes decrypted prev)).length) with
      | none => rw [hrec] at h; simp at h
      | some r =>
        rw [hrec] at h
        simp only [Option.some.injEq, Prod.mk.injEq] at h
        obtain ⟨h1, h2⟩ := h
        obtain ⟨ihp, ihl⟩ := ih _ _ _ _ r.1 r.2 (by rw [hrec])
        subst h1
        subst h2
        constructor
        · simp only [progressList]
          rw [← ihp]
        · simp only [List.length_cons, ihl]

theorem encLoop_cons (enc : Nat → List Nat → List Nat) (iv : List Nat) (fs : Nat)
    (chunk : List Nat) (rest : List (List Nat)) (prev : List Nat) (bp k : Nat) :
    encLoop enc iv fs (chunk :: rest) prev bp k =
      (enc k (padTo MAX_ENCRYPT_PER_BLOCK (xorBytes chunk (if bp = 0 then iv else prev))) ::
        (encLoop enc iv fs rest
          (enc k (padTo MAX_ENCRYPT_PER_BLOCK (xorBytes chunk (if bp = 0 then iv else prev))))
          (bp + chunk.length) (k + 1)).1,
       (bp + chunk.length, fs) ::
        (encLoop enc iv fs rest
          (enc k (padTo MAX_ENCRYPT_PER_BLOCK (xorBytes chunk (if bp = 0 then iv else prev))))
          (bp + chunk.length) (k + 1)).2) := rfl

/-- Core inversion: the decryption loop of `decrypt_file`, run over the
ciphertext blocks that the encryption loop of `encrypt_file` produced for
the remaining plaintext `t` (chunk index `i`, matching chaining state),
recovers exactly the chunks of `t` and reports the running byte totals. -/
theorem decLoop_encLoop_inverts (enc : Nat → List Nat → List Nat)
    (dec : List Nat → Option (List Nat))
    (hrt : ∀ k m, m.length = 190 → dec (enc k m) = some m)
    (hbl : ∀ k m, m.length = 190 → (enc k m).length = 256)
    (iv : List Nat) (hiv : iv.length = 190) (fs bc : Nat) :
    ∀ c t i prevE prevD k bp,
      (t.length + 189) / 190 = c →
      fs = 190 * i + t.length →
      bc = i + c →
      (i ≠ 0 → prevD = prevE ∧ 190 ≤ prevE.length) →
      decLoop dec iv fs bc c i
          ((encLoop enc iv fs (chunks190 t) prevE (190 * i) k).1.flatten) prevD bp
        = some (chunks190 t, progressList fs (chunks190 t) bp) := by
  intro c
  induction c with
  | zero =>
    intro t i prevE prevD k bp hc hfs hbc hprev
    have ht : t = [] := by
      cases t with
      | nil => rfl
      | cons a t' =>
        simp only [List.length_cons] at hc
        omega
    subst ht
    rfl
  | succ c ih =>
    intro t i prevE prevD k bp hc hfs hbc hprev
    have htne : t ≠ [] := by
      intro h
      subst h
      simp at hc
    have htpos : 1 ≤ t.length := by
      cases t with
      | nil => exact absurd rfl htne
      | cons a t' => simp
    rw [chunks190_cons t htne]
    have hchunklen : (t.take 190).length ≤ 190 := by
      simp [List.length_take]
    have hmaskif : (if 190 * i = 0 then iv else prevE) = (if i = 0 then iv else prevE) := by
      by_cases hi : i = 0
      · simp [hi]
      · rw [if_neg (by omega), if_neg hi]
    rw [encLoop_cons]
    rw [hmaskif]
    have hXlen : (padTo MAX_ENCRYPT_PER_BLOCK
        (xorBytes (t.take 190) (if i = 0 then iv else prevE))).length = 190 := by
      simp only [MAX_ENCRYPT_PER_BLOCK]
      exact xored_length _ _ hchunklen
    have hClen : (enc k (padTo MAX_ENCRYPT_PER_BLOCK
        (xorBytes (t.take 190) (if i = 0 then iv else prevE)))).length = 256 :=
      hbl k _ hXlen
    rw [List.flatten_cons]
    rw [decLoop]
    rw [take_append_len _ _ ENCRYPTED_BLOCK_SIZE (by rw [hClen]; rfl)]
    rw [drop_append_len _ _ ENCRYPTED_BLOCK_SIZE (by rw [hClen]; rfl)]
    rw [hrt k _ hXlen]
    dsimp only
    have hxored0 : (if i = 0 then
        xorBytes (padTo MAX_ENCRYPT_PER_BLOCK
          (xorBytes (t.take 190) (if i = 0 then iv else prevE))) iv
      else
        xorBytes (padTo MAX_ENCRYPT_PER_BLOCK
          (xorBytes (t.take 190) (if i = 0 then iv else prevE))) prevD) =
        t.take 190 ++ ((if i = 0 then iv else prevE).drop (t.take 190).length).take
          (190 - (t.take 190).length) := by
      by_cases hi : i = 0
      · rw [if_pos hi, if_pos hi]
        simp only [MAX_ENCRYPT_PER_BLOCK]
        exact xorBytes_padTo_recover _ _ hchunklen (by omega)
      · obtain ⟨hpd, hpl⟩ := hprev hi
        rw [if_neg hi, if_neg hi, hpd]
        simp only [MAX_ENCRYPT_PER_BLOCK]
        exact xorBytes_padTo_recover _ _ hchunklen hpl
    rw [hxored0]
    by_cases hlast : c = 0
    · -- final chunk: the whole of `t` remains, at most 190 bytes
      subst hlast
      have htle : t.length ≤ 190 := by omega
      have htake_t : t.take 190 = t := List.take_of_length_le (by omega)
      have hdropnil : t.drop 190 = [] := by
        rw [List.drop_eq_nil_iff]
        omega
      rw [htake_t, hdropnil]
      by_cases hmod : t.length = 190
      · have hcond : ¬(i = bc - 1 ∧ fs % MAX_ENCRYPT_PER_BLOCK ≠ 0) := by
          intro hAnd
          apply hAnd.2
          simp only [MAX_ENCRYPT_PER_BLOCK]
          omega
        rw [if_neg hcond]
        have hjunk : 190 - t.length = 0 := by omega
        rw [hjunk, List.take_zero, List.append_nil]
        rfl
      · have hfsmod : fs % MAX_ENCRYPT_PER_BLOCK = t.length := by
          simp only [MAX_ENCRYPT_PER_BLOCK]
          omega
        have hcond : i = bc - 1 ∧ fs % MAX_ENCRYPT_PER_BLOCK ≠ 0 := by
          refine ⟨by omega, ?_⟩
          rw [hfsmod]
          omega
        rw [if_pos hcond, hfsmod]
        rw [take_append_len _ _ _ rfl]
        rfl
    · -- not the final chunk: more than 190 bytes remain
      have ht191 : 191 ≤ t.length := by omega
      have htake_len : (t.take 190).length = 190 := by
        rw [List.length_take]
        omega
      have hjunk : 190 - (t.take 190).length = 0 := by omega
      rw [hjunk, List.take_zero, List.append_nil]
      have hcond : ¬(i = bc - 1 ∧ fs % MAX_ENCRYPT_PER_BLOCK ≠ 0) := by
        intro hAnd
        have h1 := hAnd.1
        omega
      rw [if_neg hcond]
      rw [show 190 * i + (t.take 190).length = 190 * (i + 1) from by rw [htake_len]; ring]
      have hrec := ih (t.drop 190) (i + 1)
        (enc k (padTo MAX_ENCRYPT_PER_BLOCK
          (xorBytes (t.take 190) (if i = 0 then iv else prevE))))
        (enc k (padTo MAX_ENCRYPT_PER_BLOCK
          (xorBytes (t.take 190) (if i = 0 then iv else prevE))))
        (k + 1) (bp + (t.take 190).length)
        (by simp only [List.length_drop]; omega)
        (by simp only [List.length_drop]; omega)
        (by omega)
        (fun _ => ⟨rfl, by rw [hClen]; omega⟩)
      rw [hrec]
      rw [show progressList fs (t.take 190 :: chunks190 (t.drop 190)) bp =
        (bp + (t.take 190).length, fs) ::
          progressList fs (chunks190 (t.drop 190)) (bp + (t.take 190).length) from rfl]

theorem encrypt_file_out (enc : Nat → List Nat → List Nat) (iv : List Nat)
    (filename content : List Nat) :
    (encrypt_file enc iv filename content).out =
      mkHeader (utf8Encode filename) content.length
          ((content.length + MAX_ENCRYPT_PER_BLOCK - 1) / MAX_ENCRYPT_PER_BLOCK)
        ++ utf8Encode filename
        ++ (enc 0 iv ++
            (encLoop enc iv content.length (chunks190 content) (enc 0 iv) 0 1).1.flatten) := by
  rw [encrypt_file]
  simp [List.append_assoc]

/-- Function `decrypt_file` inverts `encrypt_file`: the decoded chunks are exactly
the plaintext chunks, the recovered filename is the original one, and the
progress callbacks report the running plaintext byte counts. -/
theorem decrypt_file_encrypt_file (enc : Nat → List Nat → List Nat)
    (dec : List Nat → Option (List Nat))
    (hrt : ∀ k m, m.length = 190 → dec (enc k m) = some m)
    (hbl : ∀ k m, m.length = 190 → (enc k m).length = 256)
    (iv : List Nat) (hiv : iv.length = 190)
    (filename content : List Nat)
    (hname : ∀ c ∈ filename, validCp c = true)
    (hfblen : (utf8Encode filename).length < 65536)
    (hclen : content.length ≤ 1900) :
    decrypt_file dec (encrypt_file enc iv filename content).out =
      some { filename := filename, size := content.length,
             chunks := chunks190 content,
             progress := progressList content.length (chunks190 content) 0 } := by
  have hbc : (content.length + MAX_ENCRYPT_PER_BLOCK - 1) / MAX_ENCRYPT_PER_BLOCK =
      (content.length + 189) / 190 := by
    simp only [MAX_ENCRYPT_PER_BLOCK]
    omega
  have hivlen : (enc 0 iv).length = 256 := hbl 0 iv hiv
  have hdecname : decodeFilenameBytes (utf8Encode filename) = filename := by
    rw [decodeFilenameBytes, utf8Decode_utf8Encode filename hname]
  have hval : validate_rsaf_file (encrypt_file enc iv filename content).out =
      some { version := 1, filename := filename, fileSize := content.length,
             blockCount := (content.length + 189) / 190,
             totalSize := 32 + (utf8Encode filename).length +
               (enc 0 iv ++
                 (encLoop enc iv content.length (chunks190 content)
                   (enc 0 iv) 0 1).1.flatten).length } := by
    rw [encrypt_file_out, hbc]
    rw [validate_rsaf_file_mk (utf8Encode filename) content.length ((content.length + 189) / 190)
      (enc 0 iv ++ (encLoop enc iv content.length (chunks190 content) (enc 0 iv) 0 1).1.flatten)
      hfblen (by norm_num; omega) (by norm_num; omega)]
    rw [hdecname]
  rw [decrypt_file, hval]
  dsimp only
  rw [show firstBlockOffset
      { version := 1, filename := filename, fileSize := content.length,
        blockCount := (content.length + 189) / 190,
        totalSize := 32 + (utf8Encode filename).length +
          (enc 0 iv ++
            (encLoop enc iv content.length (chunks190 content)
              (enc 0 iv) 0 1).1.flatten).length } =
    32 + (utf8Encode filename).length from rfl]
  rw [encrypt_file_out, hbc]
  have hdroprest : (mkHeader (utf8Encode filename) content.length ((content.length + 189) / 190)
      ++ utf8Encode filename
      ++ (enc 0 iv ++
          (encLoop enc iv content.length (chunks190 content) (enc 0 iv) 0 1).1.flatten)).drop
        (32 + (utf8Encode filename).length) =
      enc 0 iv ++ (encLoop enc iv content.length (chunks190 content) (enc 0 iv) 0 1).1.flatten := by
    exact drop_append_len _ _ _ (by rw [List.length_append, mkHeader_length])
  rw [hdroprest]
  rw [take_append_len _ _ ENCRYPTED_BLOCK_SIZE (by rw [hivlen]; rfl)]
  rw [drop_append_len _ _ ENCRYPTED_BLOCK_SIZE (by rw [hivlen]; rfl)]
  rw [hrt 0 iv hiv]
  dsimp only
  have hmain := decLoop_encLoop_inverts enc dec hrt hbl iv hiv content.length
    ((content.length + 189) / 190) ((content.length + 189) / 190) content 0
    (enc 0 iv) (enc 0 iv) 1 0 rfl (by omega) (by omega) (fun h => absurd rfl h)
  rw [show (190 : Nat) * 0 = 0 from rfl] at hmain
  rw [hmain]

/-- The code's encryption loop computes exactly the spec's masked blocks:
the code tests `bytes_processed == 0` where the spec says `i == 0`, and
the two agree because every chunk read from the file is non-empty. -/
theorem encLoop_eq_specEncryptBlocks (enc : Nat → List Nat → List Nat) (iv : List Nat)
    (fs : Nat) : ∀ (chunks : List (List Nat)) (i : Nat) (prev : List Nat) (bp k : Nat),
    (∀ c ∈ chunks, c ≠ []) → (bp = 0 ↔ i = 0) → k = i + 1 →
    (encLoop enc iv fs chunks prev bp k).1 = specEncryptBlocks enc iv chunks i prev := by
  intro chunks
  induction chunks with
  | nil => intro i prev bp k _ _ _; rfl
  | cons P rest ih =>
    intro i prev bp k hne hbp hk
    subst hk
    rw [encLoop_cons, specEncryptBlocks]
    have hmask : (if bp = 0 then iv else prev) = (if i = 0 then iv else prev) := by
      by_cases hb : bp = 0
      · rw [if_pos hb, if_pos (hbp.mp hb)]
      · rw [if_neg hb, if_neg (fun hi => hb (hbp.mpr hi))]
    simp only [MAX_ENCRYPT_PER_BLOCK, hmask]
    refine congrArg₂ _ rfl ?_
    refine ih (i + 1) _ (bp + P.length) (i + 1 + 1) (fun c hc => hne c (by simp [hc])) ?_ rfl
    have hP : P ≠ [] := hne P (by simp)
    have hPlen : 1 ≤ P.length := by
      cases P with
      | nil => exact absurd rfl hP
      | cons a as => simp
    omega

/-- The code's decryption loop computes exactly the spec's unmasked
chunks, reading its masks from the stored ciphertext blocks. -/
theorem decLoop_eq_specDecryptChunks (dec : List Nat → Option (List Nat)) (iv : List Nat)
    (fs bc : Nat) : ∀ (cblocks : List (List Nat)) (i : Nat) (prev : List Nat) (bp : Nat),
    (∀ C ∈ cblocks, C.length = 256) →
    (decLoop dec iv fs bc cblocks.length i cblocks.flatten prev bp).map Prod.fst =
      specDecryptChunks dec iv fs bc cblocks i prev := by
  intro cblocks
  induction cblocks with
  | nil => intro i prev bp _; rfl
  | cons C rest ih =>
    intro i prev bp hlen
    have hC : C.length = 256 := hlen C (by simp)
    rw [List.length_cons, List.flatten_cons, decLoop]
    rw [take_append_len _ _ ENCRYPTED_BLOCK_SIZE (by rw [hC]; rfl)]
    rw [drop_append_len _ _ ENCRYPTED_BLOCK_SIZE (by rw [hC]; rfl)]
    rw [specDecryptChunks]
    cases hdec : dec C with
    | none => rfl
    | some X =>
      dsimp only
      have hrec := ih (i + 1) C
        (bp + (if i = bc - 1 ∧ fs % MAX_ENCRYPT_PER_BLOCK ≠ 0 then
          (if i = 0 then xorBytes X iv else xorBytes X prev).take (fs % MAX_ENCRYPT_PER_BLOCK)
        else (if i = 0 then xorBytes X iv else xorBytes X prev)).length)
        (fun D hD => hlen D (by simp [hD]))
      cases hspec : specDecryptChunks dec iv fs bc rest (i + 1) C with
      | none =>
        rw [hspec] at hrec
        cases hloop : decLoop dec iv fs bc rest.length (i + 1) rest.flatten C
            (bp + (if i = bc - 1 ∧ fs % MAX_ENCRYPT_PER_BLOCK ≠ 0 then
              (if i = 0 then xorBytes X iv else xorBytes X prev).take (fs % MAX_ENCRYPT_PER_BLOCK)
            else (if i = 0 then xorBytes X iv else xorBytes X prev)).length) with
        | none => rfl
        | some r => rw [hloop] at hrec; exact absurd hrec (by simp)
      | some Ps =>
        rw [hspec] at hrec
        cases hloop : decLoop dec iv fs bc rest.length (i + 1) rest.flatten C
            (bp + (if i = bc - 1 ∧ fs % MAX_ENCRYPT_PER_BLOCK ≠ 0 then
              (if i = 0 then xorBytes X iv else xorBytes X prev).take (fs % MAX_ENCRYPT_PER_BLOCK)
            else (if i = 0 then xorBytes X iv else xorBytes X prev)).length) with
        | none => rw [hloop] at hrec; exact absurd hrec (by simp)
        | some r =>
          rw [hloop] at hrec
          simp only [Option.map_some', Option.some.injEq] at hrec
          dsimp only
          simp only [Option.map_some', Option.some.injEq]
          rw [hrec]
          refine congrArg₂ _ ?_ rfl
          simp only [MAX_ENCRYPT_PER_BLOCK]
          by_cases hi : i = 0 <;> simp [hi]

/-! ### Tamper localisation -/

theorem xorBytes_take190_congr (a b b' : List Nat) (ha : a.length ≤ 190)
    (h : b.take 190 = b'.take 190) : xorBytes a b = xorBytes a b' := by
  rw [← xorBytes_take_right a b 190 ha, ← xorBytes_take_right a b' 190 ha, h]

theorem decLoop_succ_eq (dec : List Nat → Option (List Nat)) (iv : List Nat) (fs bc : Nat)
    (n i : Nat) (stream prev : List Nat) (bp : Nat) :
    decLoop dec iv fs bc (n + 1) i stream prev bp =
      match dec (stream.take ENCRYPTED_BLOCK_SIZE) with
      | none => none
      | some X =>
        match decLoop dec iv fs bc n (i + 1) (stream.drop ENCRYPTED_BLOCK_SIZE)
            (stream.take ENCRYPTED_BLOCK_SIZE) (bp + (decEmit iv prev fs bc i X).length) with
        | none => none
        | some r =>
          some (decEmit iv prev fs bc i X :: r.1,
            (bp + (decEmit iv prev fs bc i X).length, fs) :: r.2) := rfl

/-- The running state `prev_ciphertext` only feeds the next chunk through
the first 190 bytes of its XOR mask: decryption is unchanged if the
previous block is replaced by one agreeing on those bytes. -/
theorem decLoop_prev_take190 (dec : List Nat → Option (List Nat)) (iv : List Nat) (fs bc : Nat)
    (hdec190 : ∀ c l, dec c = some l → l.length ≤ 190) :
    ∀ (n i : Nat) (stream prev prev' : List Nat) (bp : Nat), prev.take 190 = prev'.take 190 →
    decLoop dec iv fs bc n i stream prev bp = decLoop dec iv fs bc n i stream prev' bp := by
  intro n
  induction n with
  | zero => intro i stream prev prev' bp _; rfl
  | succ n ih =>
    intro i stream prev prev' bp hpp
    rw [decLoop_succ_eq, decLoop_succ_eq]
    cases hdec : dec (stream.take ENCRYPTED_BLOCK_SIZE) with
    | none => rfl
    | some d =>
      dsimp only
      have hx : decEmit iv prev fs bc i d = decEmit iv prev' fs bc i d := by
        rw [decEmit, decEmit]
        have hbase : (if i = 0 then xorBytes d iv else xorBytes d prev) =
            (if i = 0 then xorBytes d iv else xorBytes d prev') := by
          by_cases hi : i = 0
          · rw [if_pos hi, if_pos hi]
          · rw [if_neg hi, if_neg hi]
            exact xorBytes_take190_congr d prev prev' (hdec190 _ _ hdec) hpp
        rw [hbase]
      rw [hx]

/-- Replacing ciphertext block `C_i` by a block of the same size that
still decrypts (to 190 bytes) and agrees with `C_i` on its first 190
bytes leaves every later chunk's decryption unchanged, and chunk `i`
keeps its length. -/
theorem decLoop_tamper_localized (dec : List Nat → Option (List Nat)) (iv : List Nat)
    (fs bc : Nat) (hdec190 : ∀ c l, dec c = some l → l.length ≤ 190)
    (n i : Nat) (C C' rest prev : List Nat) (bp : Nat) (d d' : List Nat)
    (hC : C.length = 256) (hC' : C'.length = 256)
    (hd : dec C = some d) (hd' : dec C' = some d')
    (hdl : d.length = 190) (hdl' : d'.length = 190)
    (hsame : C.take 190 = C'.take 190) :
    (decLoop dec iv fs bc (n + 1) i (C ++ rest) prev bp = none ∧
     decLoop dec iv fs bc (n + 1) i (C' ++ rest) prev bp = none) ∨
    (∃ x x' xs ps, decLoop dec iv fs bc (n + 1) i (C ++ rest) prev bp = some (x :: xs, ps) ∧
      decLoop dec iv fs bc (n + 1) i (C' ++ rest) prev bp = some (x' :: xs, ps) ∧
      x.length = x'.length) := by
  have htake1 : (C ++ rest).take ENCRYPTED_BLOCK_SIZE = C :=
    take_append_len _ _ _ (by rw [hC]; rfl)
  have hdrop1 : (C ++ rest).drop ENCRYPTED_BLOCK_SIZE = rest :=
    drop_append_len _ _ _ (by rw [hC]; rfl)
  have htake2 : (C' ++ rest).take ENCRYPTED_BLOCK_SIZE = C' :=
    take_append_len _ _ _ (by rw [hC']; rfl)
  have hdrop2 : (C' ++ rest).drop ENCRYPTED_BLOCK_SIZE = rest :=
    drop_append_len _ _ _ (by rw [hC']; rfl)
  have hemlen : (decEmit iv prev fs bc i d).length = (decEmit iv prev fs bc i d').length := by
    have hbase : (if i = 0 then xorBytes d iv else xorBytes d prev).length =
        (if i = 0 then xorBytes d' iv else xorBytes d' prev).length := by
      by_cases hi : i = 0 <;> simp [hi, xorBytes_length, hdl, hdl']
    rw [decEmit, decEmit]
    by_cases hcond : i = bc - 1 ∧ fs % MAX_ENCRYPT_PER_BLOCK ≠ 0
    · rw [if_pos hcond, if_pos hcond]
      rw [List.length_take, List.length_take, hbase]
    · rw [if_neg hcond, if_neg hcond, hbase]
  have e1 : decLoop dec iv fs bc (n + 1) i (C ++ rest) prev bp =
      match decLoop dec iv fs bc n (i + 1) rest C (bp + (decEmit iv prev fs bc i d).length) with
      | none => none
      | some r =>
        some (decEmit iv prev fs bc i d :: r.1,
          (bp + (decEmit iv prev fs bc i d).length, fs) :: r.2) := by
    rw [decLoop_succ_eq, htake1, hdrop1, hd]
  have e2 : decLoop dec iv fs bc (n + 1) i (C' ++ rest) prev bp =
      match decLoop dec iv fs bc n (i + 1) rest C' (bp + (decEmit iv prev fs bc i d').length) with
      | none => none
      | some r =>
        some (decEmit iv prev fs bc i d' :: r.1,
          (bp + (decEmit iv prev fs bc i d').length, fs) :: r.2) := by
    rw [decLoop_succ_eq, htake2, hdrop2, hd']
  have hrec2 : decLoop dec iv fs bc n (i + 1) rest C' (bp + (decEmit iv prev fs bc i d').length) =
      decLoop dec iv fs bc n (i + 1) rest C (bp + (decEmit iv prev fs bc i d).length) := by
    rw [← hemlen]
    exact decLoop_prev_take190 dec iv fs bc hdec190 n (i + 1) rest C' C _ hsame.symm
  rw [hrec2] at e2
  cases hval : decLoop dec iv fs bc n (i + 1) rest C (bp + (decEmit iv prev fs bc i d).length) with
  | none =>
    left
    rw [hval] at e1 e2
    exact ⟨e1, e2⟩
  | some r =>
    right
    refine ⟨decEmit iv prev fs bc i d, decEmit iv prev fs bc i d', r.1,
      (bp + (decEmit iv prev fs bc i d).length, fs) :: r.2, ?_, ?_, hemlen⟩
    · rw [hval] at e1
      exact e1
    · rw [hval] at e2
      rw [e2, hemlen]

/-! ### Concrete primitive facts and concrete inputs -/

theorem concreteDec_concreteEnc (k : Nat) (m : List Nat) (hm : m.length = 190) :
    concreteDec (concreteEnc k m) = some m := by
  rw [concreteEnc, concreteDec, if_pos (by simp [hm])]
  rw [take_append_len _ _ _ hm.symm]

theorem concreteEnc_length (k : Nat) (m : List Nat) (hm : m.length = 190) :
    (concreteEnc k m).length = 256 := by
  simp [concreteEnc, hm]

theorem concreteDec_le190 (c l : List Nat) (h : concreteDec c = some l) : l.length ≤ 190 := by
  rw [concreteDec] at h
  split_ifs at h with hc
  · simp only [Option.some.injEq] at h
    subst h
    simp [List.length_take]

/-! ### Claims -/

/-- C1: for every byte sequence `P` (length 0 ≤ n ≤ 10·maxChunkSize) and
every block primitive satisfying the valid-keypair contract (decrypting
an encrypted 190-byte block returns it; ciphertext blocks are 256 bytes),
running `decrypt_file` on the output of `encrypt_file` reproduces exactly
the original bytes, and the filename returned by `decrypt_file` equals
the basename given to `encrypt_file`. -/
theorem C1_round_trip (enc : Nat → List Nat → List Nat) (dec : List Nat → Option (List Nat))
    (hrt : ∀ k m, m.length = 190 → dec (enc k m) = some m)
    (hbl : ∀ k m, m.length = 190 → (enc k m).length = 256)
    (iv : List Nat) (hiv : iv.length = 190) (filename content : List Nat)
    (hname : ∀ c ∈ filename, validCp c = true)
    (hfblen : (utf8Encode filename).length < 65536)
    (hclen : content.length ≤ 10 * MAX_ENCRYPT_PER_BLOCK) :
    ∃ r, decrypt_file dec (encrypt_file enc iv filename content).out = some r ∧
      r.chunks.flatten = content ∧ r.filename = filename :=
  ⟨_, decrypt_file_encrypt_file enc dec hrt hbl iv hiv filename content hname hfblen
      (by simp only [MAX_ENCRYPT_PER_BLOCK] at hclen; omega),
    chunks190_flatten content, rfl⟩

theorem C1_round_trip_witness :
    ∃ r, decrypt_file concreteDec
        (encrypt_file concreteEnc (List.replicate 190 0) [0x61] [1, 2, 3]).out = some r ∧
      r.chunks.flatten = [1, 2, 3] ∧ r.filename = [0x61] :=
  C1_round_trip concreteEnc concreteDec concreteDec_concreteEnc concreteEnc_length
    (List.replicate 190 0) (by simp) [0x61] [1, 2, 3] (by decide) (by decide) (by decide)

/-- C2: `encrypt_file` masks chunk 0 with the raw seed and chunk `i > 0`
with the previous chunk's stored ciphertext block, XORing over the
overlapping length and zero-padding to 190 bytes before encryption, and
`decrypt_file` applies the same mask rule reading `C_{i-1}` from the
file: the loops translated from the code coincide with the spec-worded
recurrences `specEncryptBlocks` and `specDecryptChunks`. -/
theorem C2_cbc_masking (enc : Nat → List Nat → List Nat) (dec : List Nat → Option (List Nat))
    (iv : List Nat) (fs bc : Nat) :
    (∀ (chunks : List (List Nat)) (prev : List Nat), (∀ c ∈ chunks, c ≠ []) →
      (encLoop enc iv fs chunks prev 0 1).1 = specEncryptBlocks enc iv chunks 0 prev)
    ∧ (∀ (cblocks : List (List Nat)) (prev : List Nat) (bp : Nat),
        (∀ C ∈ cblocks, C.length = 256) →
        (decLoop dec iv fs bc cblocks.length 0 cblocks.flatten prev bp).map Prod.fst =
          specDecryptChunks dec iv fs bc cblocks 0 prev) := by
  constructor
  · intro chunks prev hne
    exact encLoop_eq_specEncryptBlocks enc iv fs chunks 0 prev 0 1 hne (by simp) rfl
  · intro cblocks prev bp h
    exact decLoop_eq_specDecryptChunks dec iv fs bc cblocks 0 prev bp h

theorem C2_cbc_masking_witness :
    (encLoop concreteEnc (List.replicate 190 7) 3 [[1, 2, 3]] (List.replicate 256 0) 0 1).1 =
      specEncryptBlocks concreteEnc (List.replicate 190 7) [[1, 2, 3]] 0 (List.replicate 256 0)
    ∧ (decLoop concreteDec (List.replicate 190 7) 3 1
          ([List.replicate 256 0] : List (List Nat)).length 0
          ([List.replicate 256 0] : List (List Nat)).flatten (List.replicate 256 9) 0).map
        Prod.fst =
      specDecryptChunks concreteDec (List.replicate 190 7) 3 1 [List.replicate 256 0] 0
        (List.replicate 256 9) :=
  ⟨(C2_cbc_masking concreteEnc concreteDec (List.replicate 190 7) 3 1).1 [[1, 2, 3]]
      (List.replicate 256 0) (by decide),
   (C2_cbc_masking concreteEnc concreteDec (List.replicate 190 7) 3 1).2 [List.replicate 256 0]
      (List.replicate 256 9) 0 (by decide)⟩

/-- C3 (code bug): the spec requires a fatal IntegrityError when the
reconstructed plaintext length differs from the header's `fileSize`, but
`decrypt_file` performs no such check: on `badFile` (header declares
`fileSize = 1` yet `blockCount = 2`, all blocks decrypt successfully) it
silently returns success after writing 191 bytes. -/
theorem C3_no_integrity_error :
    (decrypt_file concreteDec badFile).map (fun r => (r.size, r.chunks.flatten.length)) =
      some (1, 191) ∧ (191 : Nat) ≠ 1 :=
  ⟨by decide, by decide⟩

/-- C4 counterexample: `file4` is a 32-byte file with valid magic and
version whose header declares a 5-byte filename that is absent, so the
filename field would read past end-of-file; the claim says
`validate_rsaf_file` returns null there, but the code returns parsed
metadata with an empty filename. -/
theorem C4_counterexample :
    validate_rsaf_file file4 =
      some { version := 1, filename := [], fileSize := 0, blockCount := 0, totalSize := 32 } := by
  decide

/-- C4 amended: `validate_rsaf_file` returns null (never raising) in
exactly these cases: file shorter than 32 bytes, magic different from
"RSAF", or version different from 1.  A filename field that would read
past end-of-file is NOT rejected: the filename is decoded from however
many bytes are present, and the parsed metadata is returned. -/
theorem C4_amended :
    (∀ file : List Nat, validate_rsaf_file file = none ↔
      (file.length < 32 ∨ (file.take 32).take 4 ≠ RSAF_MAGIC ∨
        unpackLE (((file.take 32).drop 4).take 2) ≠ 1))
    ∧ (∀ (file : List Nat) (md : Metadata), validate_rsaf_file file = some md →
        md.version = 1 ∧
        md.filename = decodeFilenameBytes
          ((file.drop 32).take (unpackLE (((file.take 32).drop 6).take 2))) ∧
        md.fileSize = unpackLE (((file.take 32).drop 8).take 8) ∧
        md.blockCount = unpackLE (((file.take 32).drop 16).take 4) ∧
        md.totalSize = file.length) := by
  constructor
  · exact validate_rsaf_file_none_iff
  · intro file md h
    rw [validate_rsaf_file] at h
    simp only [FILE_HEADER_SIZE, RSAF_VERSION] at h
    split_ifs at h with h1 h2 h3
    simp only [Option.some.injEq] at h
    subst h
    exact ⟨not_not.mp h3, rfl, rfl, rfl, rfl⟩

theorem C4_amended_witness :
    (validate_rsaf_file file4 = none ↔
      (file4.length < 32 ∨ (file4.take 32).take 4 ≠ RSAF_MAGIC ∨
        unpackLE (((file4.take 32).drop 4).take 2) ≠ 1))
    ∧ (md4.version = 1 ∧
        md4.filename = decodeFilenameBytes
          ((file4.drop 32).take (unpackLE (((file4.take 32).drop 6).take 2))) ∧
        md4.fileSize = unpackLE (((file4.take 32).drop 8).take 8) ∧
        md4.blockCount = unpackLE (((file4.take 32).drop 16).take 4) ∧
        md4.totalSize = file4.length) :=
  ⟨C4_amended.1 file4, C4_amended.2 file4 md4 (by decide)⟩

/-- C5: the file written by `encrypt_file` has total length exactly
32 (header) + UTF-8 byte length of the basename + (blockCount + 1)·256,
where blockCount = ⌈fileSize / 190⌉ is the value recorded in the header's
blockCount field; the extra block is the encrypted chaining seed. -/
theorem C5_output_size (enc : Nat → List Nat → List Nat) (iv : List Nat)
    (hbl : ∀ k m, m.length = 190 → (enc k m).length = 256)
    (hiv : iv.length = 190) (filename content : List Nat) :
    (encrypt_file enc iv filename content).out.length =
      FILE_HEADER_SIZE + (utf8Encode filename).length +
        ((content.length + MAX_ENCRYPT_PER_BLOCK - 1) / MAX_ENCRYPT_PER_BLOCK + 1) *
          ENCRYPTED_BLOCK_SIZE
    ∧ (((encrypt_file enc iv filename content).out.take 32).drop 16).take 4 =
        packLE 4 ((content.length + MAX_ENCRYPT_PER_BLOCK - 1) / MAX_ENCRYPT_PER_BLOCK) := by
  constructor
  · rw [encrypt_file_out]
    simp only [List.length_append, mkHeader_length]
    rw [hbl 0 iv hiv]
    rw [encLoop_flatten_length enc iv content.length hbl (chunks190 content)
      (fun c hc => (chunks190_mem content c hc).1) (enc 0 iv) 0 1]
    rw [chunks190_length]
    simp only [FILE_HEADER_SIZE, MAX_ENCRYPT_PER_BLOCK, ENCRYPTED_BLOCK_SIZE]
    omega
  · rw [encrypt_file_out]
    have h32 : (mkHeader (utf8Encode filename) content.length
        ((content.length + MAX_ENCRYPT_PER_BLOCK - 1) / MAX_ENCRYPT_PER_BLOCK)
        ++ utf8Encode filename
        ++ (enc 0 iv ++
          (encLoop enc iv content.length (chunks190 content) (enc 0 iv) 0 1).1.flatten)).take 32 =
        mkHeader (utf8Encode filename) content.length
          ((content.length + MAX_ENCRYPT_PER_BLOCK - 1) / MAX_ENCRYPT_PER_BLOCK) := by
      rw [List.append_assoc]
      exact take_append_len _ _ _ (mkHeader_length _ _ _).symm
    rw [h32, mkHeader_blockCount_field]

theorem C5_output_size_witness :
    (encrypt_file concreteEnc (List.replicate 190 0) [0x61] [1, 2, 3]).out.length =
      FILE_HEADER_SIZE + (utf8Encode [0x61]).length +
        ((([1, 2, 3] : List Nat).length + MAX_ENCRYPT_PER_BLOCK - 1) / MAX_ENCRYPT_PER_BLOCK + 1) *
          ENCRYPTED_BLOCK_SIZE
    ∧ (((encrypt_file concreteEnc (List.replicate 190 0) [0x61] [1, 2, 3]).out.take 32).drop
        16).take 4 =
        packLE 4 ((([1, 2, 3] : List Nat).length + MAX_ENCRYPT_PER_BLOCK - 1) /
          MAX_ENCRYPT_PER_BLOCK) :=
  C5_output_size concreteEnc (List.replicate 190 0) concreteEnc_length (by simp) [0x61] [1, 2, 3]

/-- C6 counterexample: encrypting `content6` (chunk 0 all zeros, chunk 1
all ones) under the concrete primitive with an all-zero seed, then
flipping one bit of ciphertext block `C_0` (file byte 289 goes 0 → 1,
with `0 = blockCount - 2 < blockCount - 1`), changes the decryption of
chunk 1 as well — its byte 0 flips — because the decoder masks chunk 1
with the stored (tampered) bytes of `C_0`, which no longer equal the mask
the encoder used.  This refutes the claim that chunk `i + 1` decrypts
unchanged after any single-bit flip in `C_i`. -/
theorem C6_counterexample :
    (decrypt_file concreteDec (encrypt_file concreteEnc iv6 [0x61] content6).out).map
        (fun r => r.chunks) = some [List.replicate 190 0, List.replicate 190 1]
    ∧ file6T = ((encrypt_file concreteEnc iv6 [0x61] content6).out).set 289 1
    ∧ ((encrypt_file concreteEnc iv6 [0x61] content6).out).getD 289 0 = 0
    ∧ (decrypt_file concreteDec file6T).map (fun r => r.chunks) =
        some [1 :: List.replicate 189 0, 0 :: List.replicate 189 1]
    ∧ (0 :: List.replicate 189 1) ≠ List.replicate 190 1 :=
  ⟨by decide, rfl, by decide, by decide, by decide⟩

/-- C6 amended: replacing ciphertext block `C_i` by a same-size block
that still decrypts to 190 bytes changes the decryption of chunk `i`
only within its unchanged length, leaves every chunk after `i + 1`
unchanged, and leaves chunk `i + 1` unchanged precisely because its mask
is read from the stored bytes — provided the modification is confined to
bytes 190..255 of `C_i` (outside the XOR mask overlap); a flip within the
first 190 bytes also corrupts chunk `i + 1` (see the counterexample). -/
theorem C6_amended (dec : List Nat → Option (List Nat)) (iv : List Nat)
    (fs bc : Nat) (hdec190 : ∀ c l, dec c = some l → l.length ≤ 190)
    (n i : Nat) (C C' rest prev : List Nat) (bp : Nat) (d d' : List Nat)
    (hC : C.length = 256) (hC' : C'.length = 256)
    (hd : dec C = some d) (hd' : dec C' = some d')
    (hdl : d.length = 190) (hdl' : d'.length = 190)
    (hsame : C.take 190 = C'.take 190) :
    (decLoop dec iv fs bc (n + 1) i (C ++ rest) prev bp = none ∧
     decLoop dec iv fs bc (n + 1) i (C' ++ rest) prev bp = none) ∨
    (∃ x x' xs ps, decLoop dec iv fs bc (n + 1) i (C ++ rest) prev bp = some (x :: xs, ps) ∧
      decLoop dec iv fs bc (n + 1) i (C' ++ rest) prev bp = some (x' :: xs, ps) ∧
      x.length = x'.length) :=
  decLoop_tamper_localized dec iv fs bc hdec190 n i C C' rest prev bp d d'
    hC hC' hd hd' hdl hdl' hsame

theorem C6_amended_witness :
    (decLoop concreteDec (List.replicate 190 3) 380 2 (1 + 1) 0
        (List.replicate 256 0 ++ List.replicate 256 0) (List.replicate 256 5) 0 = none ∧
     decLoop concreteDec (List.replicate 190 3) 380 2 (1 + 1) 0
        ((List.replicate 190 0 ++ 1 :: List.replicate 65 0) ++ List.replicate 256 0)
        (List.replicate 256 5) 0 = none) ∨
    (∃ x x' xs ps, decLoop concreteDec (List.replicate 190 3) 380 2 (1 + 1) 0
        (List.replicate 256 0 ++ List.replicate 256 0) (List.replicate 256 5) 0 =
          some (x :: xs, ps) ∧
      decLoop concreteDec (List.replicate 190 3) 380 2 (1 + 1) 0
        ((List.replicate 190 0 ++ 1 :: List.replicate 65 0) ++ List.replicate 256 0)
        (List.replicate 256 5) 0 = some (x' :: xs, ps) ∧
      x.length = x'.length) :=
  C6_amended concreteDec (List.replicate 190 3) 380 2 concreteDec_le190 1 0
    (List.replicate 256 0) (List.replicate 190 0 ++ 1 :: List.replicate 65 0)
    (List.replicate 256 0) (List.replicate 256 5) 0
    (List.replicate 190 0) (List.replicate 190 0)
    (by decide) (by decide) (by decide) (by decide) (by decide) (by decide) (by decide)

/-- C7: a 191-byte source records `blockCount = 2` in the header, and
decryption truncates the second chunk's 190 decrypted bytes down to
`191 mod 190 = 1` byte matching the original; in general the decoded
final chunk has `fileSize mod 190` bytes exactly when `fileSize` is not
a multiple of 190, and a full 190 bytes otherwise. -/
theorem C7_final_chunk (enc : Nat → List Nat → List Nat) (dec : List Nat → Option (List Nat))
    (hrt : ∀ k m, m.length = 190 → dec (enc k m) = some m)
    (hbl : ∀ k m, m.length = 190 → (enc k m).length = 256)
    (iv : List Nat) (hiv : iv.length = 190) (filename : List Nat)
    (hname : ∀ c ∈ filename, validCp c = true)
    (hfblen : (utf8Encode filename).length < 65536)
    (c₁ : List Nat) (h191 : c₁.length = 191)
    (c₂ : List Nat) (hne : c₂ ≠ []) (hlen2 : c₂.length ≤ 1900) :
    ((((encrypt_file enc iv filename c₁).out.take 32).drop 16).take 4 = packLE 4 2)
    ∧ (∃ r, decrypt_file dec (encrypt_file enc iv filename c₁).out = some r ∧
        r.chunks = [c₁.take 190, c₁.drop 190] ∧ (c₁.drop 190).length = 1 ∧
        r.chunks.flatten = c₁)
    ∧ (∃ r₂ lastChunk, decrypt_file dec (encrypt_file enc iv filename c₂).out = some r₂ ∧
        r₂.chunks.getLast? = some lastChunk ∧
        lastChunk.length = if c₂.length % 190 = 0 then 190 else c₂.length % 190) := by
  have hchunks1 : chunks190 c₁ = [c₁.take 190, c₁.drop 190] := by
    rw [chunks190_cons c₁ (by intro h; rw [h] at h191; simp at h191)]
    refine congrArg _ ?_
    have hd1 : (c₁.drop 190).length = 1 := by
      rw [List.length_drop, h191]
    rw [chunks190_cons (c₁.drop 190) (by
      intro h
      rw [h] at hd1
      simp at hd1)]
    rw [show (c₁.drop 190).take 190 = c₁.drop 190 from
      List.take_of_length_le (by rw [hd1]; omega)]
    rw [show (c₁.drop 190).drop 190 = [] from
      List.drop_eq_nil_iff.mpr (by rw [hd1]; omega)]
    rfl
  refine ⟨?_, ?_, ?_⟩
  · have h5 := (C5_output_size enc iv hbl hiv filename c₁).2
    rw [h191] at h5
    exact h5
  · refine ⟨_, decrypt_file_encrypt_file enc dec hrt hbl iv hiv filename c₁ hname hfblen
      (by rw [h191]; norm_num), ?_, ?_, ?_⟩
    · exact hchunks1
    · rw [List.length_drop, h191]
    · show (chunks190 c₁).flatten = c₁
      exact chunks190_flatten c₁
  · have hr₂ := decrypt_file_encrypt_file enc dec hrt hbl iv hiv filename c₂ hname hfblen hlen2
    cases hlastq : (chunks190 c₂).getLast? with
    | none =>
      exfalso
      exact chunks190_ne_nil c₂ hne (List.getLast?_eq_none_iff.mp hlastq)
    | some lastChunk =>
      exact ⟨_, lastChunk, hr₂, hlastq, chunks190_getLast_length c₂ lastChunk hlastq⟩

theorem C7_final_chunk_witness :
    ((((encrypt_file concreteEnc (List.replicate 190 0) [0x61]
          (List.replicate 191 5)).out.take 32).drop 16).take 4 = packLE 4 2)
    ∧ (∃ r, decrypt_file concreteDec
          (encrypt_file concreteEnc (List.replicate 190 0) [0x61]
            (List.replicate 191 5)).out = some r ∧
        r.chunks = [(List.replicate 191 5).take 190, (List.replicate 191 5).drop 190] ∧
        ((List.replicate 191 5).drop 190).length = 1 ∧
        r.chunks.flatten = List.replicate 191 5)
    ∧ (∃ r₂ lastChunk, decrypt_file concreteDec
          (encrypt_file concreteEnc (List.replicate 190 0) [0x61] [7]).out = some r₂ ∧
        r₂.chunks.getLast? = some lastChunk ∧
        lastChunk.length = if ([7] : List Nat).length % 190 = 0 then 190
          else ([7] : List Nat).length % 190) :=
  C7_final_chunk concreteEnc concreteDec concreteDec_concreteEnc concreteEnc_length
    (List.replicate 190 0) (by decide) [0x61] (by decide) (by decide)
    (List.replicate 191 5) (by decide) [7] (by decide) (by decide)

/-- C8: for an empty source (`fileSize = 0`) `encrypt_file` records
`blockCount = 0` and writes only the 32-byte header, the filename bytes
and the single encrypted seed block, and `decrypt_file` on that output
writes a zero-length file (no chunks, no progress callbacks). -/
theorem C8_empty_file (enc : Nat → List Nat → List Nat) (dec : List Nat → Option (List Nat))
    (hrt : ∀ k m, m.length = 190 → dec (enc k m) = some m)
    (hbl : ∀ k m, m.length = 190 → (enc k m).length = 256)
    (iv : List Nat) (hiv : iv.length = 190) (filename : List Nat)
    (hname : ∀ c ∈ filename, validCp c = true)
    (hfblen : (utf8Encode filename).length < 65536) :
    (encrypt_file enc iv filename []).out =
      mkHeader (utf8Encode filename) 0 0 ++ utf8Encode filename ++ enc 0 iv
    ∧ (((encrypt_file enc iv filename []).out.take 32).drop 16).take 4 = packLE 4 0
    ∧ decrypt_file dec (encrypt_file enc iv filename []).out =
        some { filename := filename, size := 0, chunks := [], progress := [] } := by
  refine ⟨?_, ?_, ?_⟩
  · rw [encrypt_file_out]
    rw [show (encLoop enc iv ([] : List Nat).length (chunks190 []) (enc 0 iv) 0 1).1.flatten =
      ([] : List Nat) from rfl]
    rw [List.append_nil]
    rfl
  · exact (C5_output_size enc iv hbl hiv filename []).2
  · exact decrypt_file_encrypt_file enc dec hrt hbl iv hiv filename [] hname hfblen (by decide)

theorem C8_empty_file_witness :
    (encrypt_file concreteEnc (List.replicate 190 0) [0x61] []).out =
      mkHeader (utf8Encode [0x61]) 0 0 ++ utf8Encode [0x61] ++
        concreteEnc 0 (List.replicate 190 0)
    ∧ (((encrypt_file concreteEnc (List.replicate 190 0) [0x61] []).out.take 32).drop 16).take 4 =
        packLE 4 0
    ∧ decrypt_file concreteDec (encrypt_file concreteEnc (List.replicate 190 0) [0x61] []).out =
        some { filename := [0x61], size := 0, chunks := [], progress := [] } :=
  C8_empty_file concreteEnc concreteDec concreteDec_concreteEnc concreteEnc_length
    (List.replicate 190 0) (by decide) [0x61] (by decide) (by decide)

/-- C9 counterexample: running `decrypt_file` on `badFile` (whose header
declares `fileSize = 1` but `blockCount = 2`) invokes the progress
callback with `(190, 1)` and then `(191, 1)`: the final invocation's
`bytesProcessed` is 191, not the declared `fileSize` of 1, refuting "in
every run ... the final invocation has bytesProcessed == fileSize". -/
theorem C9_counterexample :
    (decrypt_file concreteDec badFile).map (fun r => (r.size, r.progress)) =
      some (1, [(190, 1), (191, 1)]) ∧ (191 : Nat) ≠ 1 :=
  ⟨by decide, by decide⟩

/-- C9 amended: in every run of `encrypt_file`, and in every run of
`decrypt_file` on a file produced by `encrypt_file` (so that the header
is consistent), the progress callback is invoked once per chunk with
`totalBytes = fileSize`, with non-decreasing `bytesProcessed`, and the
final invocation (when any chunk exists) reports
`bytesProcessed = fileSize`; `decrypt_file` makes exactly the same
sequence of callbacks.  (On a file whose header is inconsistent the final
`bytesProcessed` of `decrypt_file` is the header-derived output length
instead — see the counterexample.) -/
theorem C9_progress (enc : Nat → List Nat → List Nat) (dec : List Nat → Option (List Nat))
    (hrt : ∀ k m, m.length = 190 → dec (enc k m) = some m)
    (hbl : ∀ k m, m.length = 190 → (enc k m).length = 256)
    (iv : List Nat) (hiv : iv.length = 190) (filename content : List Nat)
    (hname : ∀ c ∈ filename, validCp c = true)
    (hfblen : (utf8Encode filename).length < 65536)
    (hclen : content.length ≤ 1900) :
    (encrypt_file enc iv filename content).progress =
      progressList content.length (chunks190 content) 0
    ∧ (∀ p ∈ progressList content.length (chunks190 content) 0, p.2 = content.length)
    ∧ List.Chain' (fun a b => a.1 ≤ b.1) (progressList content.length (chunks190 content) 0)
    ∧ (progressList content.length (chunks190 content) 0).length = (chunks190 content).length
    ∧ (content ≠ [] → (progressList content.length (chunks190 content) 0).getLast? =
        some (content.length, content.length))
    ∧ ∃ r, decrypt_file dec (encrypt_file enc iv filename content).out = some r ∧
        r.progress = progressList content.length (chunks190 content) 0 := by
  refine ⟨?_, progressList_snd _ _ _, progressList_chain _ _ _, progressList_length _ _ _,
    ?_, ?_⟩
  · show (encLoop enc iv content.length (chunks190 content) (enc 0 iv) 0 1).2 = _
    exact encLoop_progress enc iv content.length (chunks190 content) (enc 0 iv) 0 1
  · intro hne
    rw [progressList_getLast _ _ _ (chunks190_ne_nil content hne)]
    rw [chunks190_flatten]
    simp
  · exact ⟨_, decrypt_file_encrypt_file enc dec hrt hbl iv hiv filename content hname hfblen
      hclen, rfl⟩

theorem C9_progress_witness :
    (encrypt_file concreteEnc (List.replicate 190 0) [0x61] [1, 2, 3]).progress =
      progressList ([1, 2, 3] : List Nat).length (chunks190 [1, 2, 3]) 0
    ∧ (∀ p ∈ progressList ([1, 2, 3] : List Nat).length (chunks190 [1, 2, 3]) 0,
        p.2 = ([1, 2, 3] : List Nat).length)
    ∧ List.Chain' (fun a b => a.1 ≤ b.1)
        (progressList ([1, 2, 3] : List Nat).length (chunks190 [1, 2, 3]) 0)
    ∧ (progressList ([1, 2, 3] : List Nat).length (chunks190 [1, 2, 3]) 0).length =
        (chunks190 [1, 2, 3]).length
    ∧ (([1, 2, 3] : List Nat) ≠ [] →
        (progressList ([1, 2, 3] : List Nat).length (chunks190 [1, 2, 3]) 0).getLast? =
          some (([1, 2, 3] : List Nat).length, ([1, 2, 3] : List Nat).length))
    ∧ ∃ r, decrypt_file concreteDec
          (encrypt_file concreteEnc (List.replicate 190 0) [0x61] [1, 2, 3]).out = some r ∧
        r.progress = progressList ([1, 2, 3] : List Nat).length (chunks190 [1, 2, 3]) 0 :=
  C9_progress concreteEnc concreteDec concreteDec_concreteEnc concreteEnc_length
    (List.replicate 190 0) (by decide) [0x61] [1, 2, 3] (by decide) (by decide) (by decide)

/-- C10: `decrypt_file` seeks to the first ciphertext block at offset
`32 + |UTF-8 re-encoding of the decoded filename|` (`firstBlockOffset`),
not `32 + filenameLength`; for an RSAF file whose filename field is fully
present, the two coincide exactly when the stored filename bytes are
valid UTF-8 (in the Latin-1 fallback case each byte ≥ 0x80 re-encodes to
two bytes, so the computed offset differs — see the witness at a file
with filename byte `0xFF`). -/
theorem C10_first_block_offset (file : List Nat) (md : Metadata)
    (hval : validate_rsaf_file file = some md)
    (hcomplete : 32 + unpackLE (((file.take 32).drop 6).take 2) ≤ file.length) :
    firstBlockOffset md = 32 + unpackLE (((file.take 32).drop 6).take 2) ↔
      (utf8Decode ((file.drop 32).take (unpackLE (((file.take 32).drop 6).take 2)))).isSome := by
  rw [validate_rsaf_file] at hval
  simp only [FILE_HEADER_SIZE, RSAF_VERSION] at hval
  split_ifs at hval with h1 h2 h3
  simp only [Option.some.injEq] at hval
  subst hval
  rw [firstBlockOffset]
  simp only [FILE_HEADER_SIZE]
  have hfb : ((file.drop 32).take (unpackLE (((file.take 32).drop 6).take 2))).length =
      unpackLE (((file.take 32).drop 6).take 2) := by
    rw [List.length_take, List.length_drop]
    omega
  cases hdec : utf8Decode ((file.drop 32).take (unpackLE (((file.take 32).drop 6).take 2))) with
  | some cs =>
    show 32 + (utf8Encode (decodeFilenameBytes _)).length = _ ↔ _
    rw [decodeFilenameBytes, hdec]
    constructor
    · intro _
      simp
    · intro _
      rw [utf8Encode_utf8Decode _ cs hdec, hfb]
  | none =>
    show 32 + (utf8Encode (decodeFilenameBytes _)).length = _ ↔ _
    rw [decodeFilenameBytes, hdec]
    dsimp only
    constructor
    · intro heq
      exfalso
      have hgt := utf8Encode_length_gt _ (utf8Decode_none_exists_high _ hdec)
      rw [hfb] at hgt
      omega
    · intro hs
      simp at hs

theorem C10_first_block_offset_witness :
    (firstBlockOffset md10 = 32 + unpackLE (((file10.take 32).drop 6).take 2) ↔
      (utf8Decode ((file10.drop 32).take (unpackLE (((file10.take 32).drop 6).take 2)))).isSome)
    ∧ firstBlockOffset md10 = 34
    ∧ 32 + unpackLE (((file10.take 32).drop 6).take 2) = 33 :=
  ⟨C10_first_block_offset file10 md10 (by decide) (by decide), by decide, by decide⟩
